import Mathlib

set_option maxHeartbeats 1600000

/-!
Verification development for the workflow normalization, mutation,
validation and layout core of the repository.

The embedding is shallow: TypeScript interfaces become structures,
JS numbers are modelled as exact rationals, optional fields become
`Option`, in-place mutation becomes value passing, and the random
`generateId` helper is modelled by an explicit id supply passed as an
argument.  Sources: `src/unnamed/part_004` (normalizer, parsers,
validator, mutation engine) and `src/src/lib/workflow-layout.ts`
(pure layout engine), with types from `src/src/types/module.ts`.
-/

namespace WorkflowSpec

/-- Node kinds of the canonical model (`ProcessNodeType` in module.ts). -/
inductive ProcessNodeType where
  | start
  | «end»
  | task
  | gateway
  | subprocess
deriving DecidableEq

/-- A 2-D position.  JS numbers are modelled as integers: every coordinate
the code computes from its integer-valued layout constants is integral
(the layer-gap sums 230 and 150 are even, so the centering half-spans are
exact), and the kernel can evaluate integer arithmetic. -/
structure Position where
  x : Int
  y : Int
deriving DecidableEq

/-- `ProcessNode` from module.ts. -/
structure ProcessNode where
  id : String
  type : ProcessNodeType
  name : String
  description : Option String := none
  assignee : Option String := none
  formRef : Option String := none
  position : Position
deriving DecidableEq

/-- `ProcessTransition` from module.ts. -/
structure ProcessTransition where
  id : String
  «from» : String
  «to» : String
  condition : Option String := none
  label : Option String := none
deriving DecidableEq

/-- `BusinessProcess` from module.ts, the canonical model. -/
structure BusinessProcess where
  id : String
  name : String
  code : String
  description : Option String := none
  nodes : List ProcessNode
  transitions : List ProcessTransition
deriving DecidableEq

/-- JS string truthiness for `a || b` on an optional string: the empty
string is falsy, a missing value is falsy. -/
def jsOrStr : Option String → String → String
  | some s, d => if s = "" then d else s
  | none, d => d

-- ─────────────────────────────────────────────────────────────
-- Mutation engine (part_004, applyMutation, lines 395-462)
-- ─────────────────────────────────────────────────────────────

/-- `WorkflowMutation`: the `type` tag together with the typed payload
each `applyMutation` case casts the payload to. -/
inductive WorkflowMutation where
  | addNode (id : Option String) (name : String) (type : Option ProcessNodeType)
  | removeNode (id : String)
  | updateNode (id : String) (name : Option String) (type : Option ProcessNodeType)
  | addTransition («from» «to» : String) (label : Option String)
  | removeTransition («from» «to» : String)
  | updateTransition («from» «to» : String) (label : Option String)

/-- Structural deep copy of a node, modelling `structuredClone`. -/
def deepCopyNode (n : ProcessNode) : ProcessNode :=
  { id := n.id, type := n.type, name := n.name, description := n.description,
    assignee := n.assignee, formRef := n.formRef,
    position := { x := n.position.x, y := n.position.y } }

/-- Structural deep copy of a transition, modelling `structuredClone`. -/
def deepCopyTransition (t : ProcessTransition) : ProcessTransition :=
  { id := t.id, «from» := t.«from», «to» := t.«to», condition := t.condition,
    label := t.label }

/-- Structural deep copy of a whole process, modelling
`structuredClone(workflow)` at the top of `applyMutation`. -/
def deepCopy (w : BusinessProcess) : BusinessProcess :=
  { id := w.id, name := w.name, code := w.code, description := w.description,
    nodes := w.nodes.map deepCopyNode,
    transitions := w.transitions.map deepCopyTransition }

/-- Replaces the first element satisfying `p`, modelling
`Array.prototype.find` followed by `Object.assign` on the found element. -/
def updateFirst (p : α → Bool) (f : α → α) : List α → List α
  | [] => []
  | a :: as => if p a then f a :: as else a :: updateFirst p f as

/-- The switch body of `applyMutation` (part_004 lines 406-459), acting on
the already-cloned value `updated`.  `gen` models the one `generateId()`
draw a case may perform. -/
def applyMutationCases (gen : String) (updated : BusinessProcess) :
    WorkflowMutation → BusinessProcess
  | .addNode id name type =>
      { updated with nodes := updated.nodes ++
          [{ id := jsOrStr id gen, name := name, type := type.getD .task,
             position := { x := 0, y := 0 } }] }
  | .removeNode id =>
      { updated with
          nodes := updated.nodes.filter (fun n => n.id != id),
          transitions := updated.transitions.filter
            (fun t => t.«from» != id && t.«to» != id) }
  | .updateNode id name type =>
      let merge := fun (n : ProcessNode) =>
        { n with name := name.getD n.name, type := type.getD n.type }
      { updated with
          nodes := updateFirst (fun n => n.id == id) merge updated.nodes }
  | .addTransition f t label =>
      { updated with transitions := updated.transitions ++
          [{ id := gen, «from» := f, «to» := t, label := label }] }
  | .removeTransition f t =>
      { updated with
          transitions :=
            updated.transitions.filter (fun tr => !(tr.«from» == f && tr.«to» == t)) }
  | .updateTransition f t label =>
      let merge := fun (tr : ProcessTransition) =>
        { tr with label := match label with | some s => some s | none => tr.label }
      { updated with
          transitions := updateFirst (fun tr => tr.«from» == f && tr.«to» == t)
            merge updated.transitions }

/-- The two live bindings of `applyMutation`: the argument `workflow`
(never written) and the clone `updated` (the only write target). -/
structure MutationState where
  workflow : BusinessProcess
  updated : BusinessProcess

/-- `applyMutation` with the argument binding tracked explicitly:
line 404 clones the argument, the switch edits only the clone. -/
def runApplyMutation (gen : String) (w : BusinessProcess)
    (m : WorkflowMutation) : MutationState :=
  { workflow := w, updated := applyMutationCases gen (deepCopy w) m }

/-- `applyMutation` (part_004 lines 403-462). -/
def applyMutation (gen : String) (w : BusinessProcess)
    (m : WorkflowMutation) : BusinessProcess :=
  (runApplyMutation gen w m).updated

theorem deepCopyNode_eq (n : ProcessNode) : deepCopyNode n = n := rfl

theorem deepCopyTransition_eq (t : ProcessTransition) :
    deepCopyTransition t = t := rfl

theorem map_deepCopyNode (l : List ProcessNode) : l.map deepCopyNode = l := by
  induction l with
  | nil => rfl
  | cons a as ih => simp [deepCopyNode_eq, ih]

theorem map_deepCopyTransition (l : List ProcessTransition) :
    l.map deepCopyTransition = l := by
  induction l with
  | nil => rfl
  | cons a as ih => simp [deepCopyTransition_eq, ih]

theorem deepCopy_eq (w : BusinessProcess) : deepCopy w = w := by
  cases w with
  | mk id name code description nodes transitions =>
    simp [deepCopy, map_deepCopyNode, map_deepCopyTransition]

theorem updateFirst_of_none (p : α → Bool) (f : α → α) (l : List α)
    (h : ∀ a ∈ l, p a = false) : updateFirst p f l = l := by
  induction l with
  | nil => rfl
  | cons a as ih =>
    rw [updateFirst, h a (List.mem_cons_self a as)]
    simp only [Bool.false_eq_true, if_false]
    rw [ih (fun x hx => h x (List.mem_cons_of_mem a hx))]

/-- A small concrete process used to instantiate universally quantified
theorems at concrete inputs. -/
def sampleProcess : BusinessProcess :=
  { id := "p1", name := "Sample", code := "sample",
    nodes :=
      [{ id := "A", type := .start, name := "Begin", position := { x := 0, y := 0 } },
       { id := "B", type := .task, name := "Work", position := { x := 0, y := 0 } }],
    transitions := [{ id := "t1", «from» := "A", «to» := "B" }] }

/-- C4: the removeNode mutation yields a model in which no node has the
removed id and no transition references it as source or target, while every
other node and transition, and all scalar fields, are retained unchanged. -/
theorem C4_removeNode_integrity (gen : String) (w : BusinessProcess) (X : String) :
    (∀ n ∈ (applyMutation gen w (.removeNode X)).nodes, n.id ≠ X) ∧
    (∀ t ∈ (applyMutation gen w (.removeNode X)).transitions,
        t.«from» ≠ X ∧ t.«to» ≠ X) ∧
    (applyMutation gen w (.removeNode X)).nodes
      = w.nodes.filter (fun n => n.id != X) ∧
    (applyMutation gen w (.removeNode X)).transitions
      = w.transitions.filter (fun t => t.«from» != X && t.«to» != X) ∧
    (applyMutation gen w (.removeNode X)).id = w.id ∧
    (applyMutation gen w (.removeNode X)).name = w.name ∧
    (applyMutation gen w (.removeNode X)).code = w.code ∧
    (applyMutation gen w (.removeNode X)).description = w.description := by
  have hu : applyMutation gen w (.removeNode X)
      = { w with nodes := w.nodes.filter (fun n => n.id != X),
                 transitions :=
                   w.transitions.filter (fun t => t.«from» != X && t.«to» != X) } := by
    simp [applyMutation, runApplyMutation, applyMutationCases, deepCopy_eq]
  refine ⟨?_, ?_, by simp [hu], by simp [hu], by simp [hu], by simp [hu],
    by simp [hu], by simp [hu]⟩
  · intro n hn
    rw [hu] at hn
    simp only [List.mem_filter, bne_iff_ne] at hn
    exact hn.2
  · intro t ht
    rw [hu] at ht
    simp only [List.mem_filter, Bool.and_eq_true, bne_iff_ne] at ht
    exact ht.2

/-- C5: applyMutation works on a deep copy and never edits its argument:
the tracked argument binding of `runApplyMutation` is returned unchanged for
every mutation, the deep copy is value-equal to the input, and the result is
exactly the pure edit applied to that copy. -/
theorem C5_applyMutation_no_aliasing (gen : String) (w : BusinessProcess)
    (m : WorkflowMutation) :
    (runApplyMutation gen w m).workflow = w ∧
    deepCopy w = w ∧
    applyMutation gen w m = applyMutationCases gen w m := by
  refine ⟨rfl, deepCopy_eq w, ?_⟩
  simp [applyMutation, runApplyMutation, deepCopy_eq]

/-- C10: an updateNode mutation naming an id matching no node, or an
updateTransition mutation naming a from/to pair matching no transition, is a
silent no-op: the result is equal to the input model. -/
theorem C10_update_unknown_noop (gen : String) (w : BusinessProcess) :
    (∀ (id : String) (name : Option String) (ty : Option ProcessNodeType),
        (∀ n ∈ w.nodes, n.id ≠ id) →
        applyMutation gen w (.updateNode id name ty) = w) ∧
    (∀ (f t : String) (label : Option String),
        (∀ tr ∈ w.transitions, ¬(tr.«from» = f ∧ tr.«to» = t)) →
        applyMutation gen w (.updateTransition f t label) = w) := by
  constructor
  · intro id name ty h
    simp only [applyMutation, runApplyMutation, applyMutationCases, deepCopy_eq]
    rw [updateFirst_of_none _ _ _ (fun n hn => by simp [h n hn])]
  · intro f t label h
    simp only [applyMutation, runApplyMutation, applyMutationCases, deepCopy_eq]
    rw [updateFirst_of_none _ _ _ (fun tr htr => by
      by_contra hc
      rw [Bool.not_eq_false] at hc
      simp only [Bool.and_eq_true, beq_iff_eq] at hc
      exact h tr htr hc)]

/-- Witness for C10 at a concrete process and unknown ids. -/
theorem C10_update_unknown_noop_witness :
    applyMutation "g" sampleProcess (.updateNode "zz" (some "n") none)
      = sampleProcess ∧
    applyMutation "g" sampleProcess (.updateTransition "B" "A" (some "l"))
      = sampleProcess :=
  ⟨(C10_update_unknown_noop "g" sampleProcess).1 "zz" (some "n") none
      (by decide),
   (C10_update_unknown_noop "g" sampleProcess).2 "B" "A" (some "l")
      (by decide)⟩

-- ─────────────────────────────────────────────────────────────
-- Canonical-JSON parser (part_004, parseJsonWorkflow, lines 209-242)
-- ─────────────────────────────────────────────────────────────

/-- A node object as found in `JSON.parse` output: every field may be
absent.  Fields the parser never reads (description, assignee, formRef) are
carried so serialized nodes are represented losslessly. -/
structure RawNode where
  id : Option String := none
  type : Option ProcessNodeType := none
  name : Option String := none
  description : Option String := none
  assignee : Option String := none
  formRef : Option String := none
  position : Option Position := none
deriving DecidableEq

/-- A transition object as found in `JSON.parse` output, including the
`source`/`target` alias fields. -/
structure RawTransition where
  id : Option String := none
  «from» : Option String := none
  «to» : Option String := none
  source : Option String := none
  target : Option String := none
  label : Option String := none
  condition : Option String := none
deriving DecidableEq

/-- A workflow payload as found in `JSON.parse` output.  `none` for
`nodes`, `transitions` or `edges` covers both an absent field and a
non-array value, which the parser treats alike. -/
structure RawWorkflow where
  id : Option String := none
  name : Option String := none
  code : Option String := none
  description : Option String := none
  nodes : Option (List RawNode) := none
  transitions : Option (List RawTransition) := none
  edges : Option (List RawTransition) := none
deriving DecidableEq

/-- The result of `JSON.parse` on a workflow document: either the bare
payload or an envelope carrying a truthy `data` field. -/
structure RawParsed where
  data : Option RawWorkflow := none
  top : RawWorkflow
deriving DecidableEq

/-- Models `generateId()` (part_004 line 387): the `Math.random` id source
is replaced by a deterministic supply indexed by the number of prior
draws. -/
def generateId (k : Nat) : String := "id" ++ toString k

/-- Maps `f` left to right while threading the id-supply counter. -/
def mapCounter (f : Nat → α → β × Nat) : Nat → List α → List β × Nat
  | c, [] => ([], c)
  | c, a :: as =>
    let bc := f c a
    let rest := mapCounter f bc.2 as
    (bc.1 :: rest.1, rest.2)

/-- Models `x || generateId()` on an id field together with the counter
bump the draw causes. -/
def idOrFresh (gen : Nat → String) (c : Nat) : Option String → String × Nat
  | some s => if s = "" then (gen c, c + 1) else (s, c)
  | none => (gen c, c + 1)

/-- The node mapping of parseJsonWorkflow (lines 228-233): keeps only
id, type, name and position, defaulting each; all other raw fields are
dropped. -/
def parseJsonNode (gen : Nat → String) (c : Nat) (n : RawNode) :
    ProcessNode × Nat :=
  let idc := idOrFresh gen c n.id
  ({ id := idc.1, type := n.type.getD .task, name := jsOrStr n.name "Node",
     position := n.position.getD { x := 0, y := 0 } }, idc.2)

/-- The transition mapping of parseJsonWorkflow (lines 234-240), with the
`from`/`source` and `to`/`target` alias chains. -/
def parseJsonTransition (gen : Nat → String) (c : Nat) (t : RawTransition) :
    ProcessTransition × Nat :=
  let idc := idOrFresh gen c t.id
  ({ id := idc.1, «from» := jsOrStr t.«from» (jsOrStr t.source ""),
     «to» := jsOrStr t.«to» (jsOrStr t.target ""),
     label := t.label, condition := t.condition }, idc.2)

/-- parseJsonWorkflow (part_004 lines 209-242), starting from the already
`JSON.parse`d value; `throw` becomes `Except.error`. -/
def parseJsonWorkflow (gen : Nat → String) (parsed : RawParsed) :
    Except String BusinessProcess :=
  let data := parsed.data.getD parsed.top
  match data.nodes with
  | none => .error "Invalid workflow JSON: missing nodes array"
  | some ns =>
    if data.transitions = none ∧ data.edges = none then
      .error "Invalid workflow JSON: missing transitions/edges array"
    else
      let idc := idOrFresh gen 0 data.id
      let nodesc := mapCounter (parseJsonNode gen) idc.2 ns
      let rawTs := match data.transitions with
        | some l => l
        | none => data.edges.getD []
      let tsc := mapCounter (parseJsonTransition gen) nodesc.2 rawTs
      .ok { id := idc.1, name := jsOrStr data.name "Workflow",
            code := jsOrStr data.code "workflow",
            description := data.description,
            nodes := nodesc.1, transitions := tsc.1 }

/-- The value `JSON.parse(JSON.stringify(n))` produces for a node;
stringify drops `undefined` optional fields and keeps the rest. -/
def rawOfNode (n : ProcessNode) : RawNode :=
  { id := some n.id, type := some n.type, name := some n.name,
    description := n.description, assignee := n.assignee,
    formRef := n.formRef, position := some n.position }

/-- The value `JSON.parse(JSON.stringify(t))` produces for a transition. -/
def rawOfTransition (t : ProcessTransition) : RawTransition :=
  { id := some t.id, «from» := some t.«from», «to» := some t.«to»,
    label := t.label, condition := t.condition }

/-- The value `JSON.parse(JSON.stringify(p))` produces for a whole
process; a BusinessProcess has no `data` field. -/
def rawOfProcess (p : BusinessProcess) : RawParsed :=
  { data := none,
    top := { id := some p.id, name := some p.name, code := some p.code,
             description := p.description,
             nodes := some (p.nodes.map rawOfNode),
             transitions := some (p.transitions.map rawOfTransition) } }

-- ─────────────────────────────────────────────────────────────
-- Validator and orchestrator tail (part_004, lines 30-123, 314-385)
-- ─────────────────────────────────────────────────────────────

/-- Warnings the first validation loop emits for one transition
(part_004 lines 317-325). -/
def transWarnings (nodeIds : List String) (t : ProcessTransition) : List String :=
  (if t.«from» ∈ nodeIds then [] else
    ["Transition references unknown source: " ++ t.«from»]) ++
  (if t.«to» ∈ nodeIds then [] else
    ["Transition references unknown target: " ++ t.«to»])

/-- Warnings the isolated-node loop emits for one node
(part_004 lines 327-338). -/
def isolatedWarnings (connected : List String) (total : Nat)
    (n : ProcessNode) : List String :=
  if n.id ∉ connected ∧ total > 1 then
    ["Node \x22" ++ n.name ++ "\x22 is isolated (no connections)"]
  else []

/-- validateWorkflow (part_004 lines 314-346); the `warnings`
out-parameter becomes the returned list. -/
def validateWorkflow (workflow : BusinessProcess) : List String :=
  let nodeIds := workflow.nodes.map (fun n => n.id)
  let orphan := workflow.transitions.foldl
    (fun acc t => acc ++ transWarnings nodeIds t) []
  let connected := workflow.transitions.foldl
    (fun acc t => acc ++ [t.«from», t.«to»]) []
  let isolated := workflow.nodes.foldl
    (fun acc n => acc ++ isolatedWarnings connected workflow.nodes.length n) []
  let hasStart := workflow.nodes.any (fun n => n.type == .start)
  let hasEnd := workflow.nodes.any (fun n => n.type == .«end»)
  orphan ++ isolated ++
    (if hasStart then [] else ["Workflow has no start node"]) ++
    (if hasEnd then [] else ["Workflow has no end node"])

/-- Format tags (`WorkflowFormat` in part_004). -/
inductive WorkflowFormat where
  | xaml
  | bpmn
  | json
  | mermaid
  | natural
deriving DecidableEq

/-- `NormalizationResult` from part_004. -/
structure NormalizationResult where
  success : Bool
  workflow : Option BusinessProcess := none
  format : WorkflowFormat
  error : Option String := none
  warnings : Option (List String) := none
deriving DecidableEq

/-- applyLayout of part_004 (lines 351-385): the external Dagre library
call is modelled by an oracle giving the coordinates `g.node(id)` reports;
only node positions are ever written. -/
def applyDagreLayout (oracle : String → Option Position)
    (w : BusinessProcess) : BusinessProcess :=
  if w.nodes.length = 0 then w
  else if w.nodes.any (fun n => n.position.x != 0 || n.position.y != 0) then w
  else
    { w with nodes := w.nodes.map (fun n =>
        match oracle n.id with
        | some pos => { n with position := { x := pos.x - 75, y := pos.y - 25 } }
        | none => n) }

/-- The success tail of normalizeWorkflow (part_004 lines 106-115):
validate, lay out, wrap in the result envelope. -/
def finishPipeline (format : WorkflowFormat)
    (oracle : String → Option Position)
    (workflow : BusinessProcess) : NormalizationResult :=
  let warnings := validateWorkflow workflow
  { success := true, workflow := some (applyDagreLayout oracle workflow),
    format := format,
    warnings := if warnings.length > 0 then some warnings else none }

/-- The json branch of normalizeWorkflow together with its catch block
(part_004 lines 82-84 and 106-122): a thrown parse error becomes a
failure envelope. -/
def normalizeJsonParsed (gen : Nat → String)
    (oracle : String → Option Position) (parsed : RawParsed) :
    NormalizationResult :=
  match parseJsonWorkflow gen parsed with
  | .error e => { success := false, format := .json, error := some e }
  | .ok w => finishPipeline .json oracle w

theorem mapCounter_length (f : Nat → α → β × Nat) :
    ∀ (c : Nat) (l : List α), (mapCounter f c l).1.length = l.length := by
  intro c l
  induction l generalizing c with
  | nil => rfl
  | cons a as ih => simp [mapCounter, ih]

theorem mapCounter_getElem? (f : Nat → α → β × Nat) :
    ∀ (l : List α) (c i : Nat),
      ∃ c', (mapCounter f c l).1[i]? = (l[i]?).map (fun a => (f c' a).1) := by
  intro l
  induction l with
  | nil => intro c i; exact ⟨c, by simp [mapCounter]⟩
  | cons a as ih =>
    intro c i
    cases i with
    | zero => exact ⟨c, by simp [mapCounter]⟩
    | succ j =>
      obtain ⟨c', h⟩ := ih (f c a).2 j
      exact ⟨c', by simpa [mapCounter] using h⟩

theorem jsOrStr_some_empty_default (s : String) :
    jsOrStr (some s) (jsOrStr none "") = s := by
  simp only [jsOrStr]
  split
  · next h => exact h.symm
  · rfl

theorem parseJsonNode_roundtrip (gen : Nat → String) (c : Nat)
    (n : ProcessNode) (hid : n.id ≠ "") (hname : n.name ≠ "")
    (hdesc : n.description = none) (hass : n.assignee = none)
    (hform : n.formRef = none) :
    parseJsonNode gen c (rawOfNode n) = (n, c) := by
  cases n with
  | mk id type name description assignee formRef position =>
    simp_all [parseJsonNode, rawOfNode, idOrFresh, jsOrStr]

theorem parseJsonTransition_roundtrip (gen : Nat → String) (c : Nat)
    (t : ProcessTransition) (hid : t.id ≠ "") :
    parseJsonTransition gen c (rawOfTransition t) = (t, c) := by
  cases t with
  | mk id f g condition label =>
    simp only [ProcessTransition.id] at hid
    simp [parseJsonTransition, rawOfTransition, idOrFresh,
      jsOrStr_some_empty_default, hid]

theorem mapCounter_nodes_roundtrip (gen : Nat → String)
    (l : List ProcessNode) (c : Nat)
    (h : ∀ n ∈ l, n.id ≠ "" ∧ n.name ≠ "" ∧ n.description = none ∧
      n.assignee = none ∧ n.formRef = none) :
    mapCounter (parseJsonNode gen) c (l.map rawOfNode) = (l, c) := by
  induction l generalizing c with
  | nil => rfl
  | cons a as ih =>
    obtain ⟨h1, h2, h3, h4, h5⟩ := h a (List.mem_cons_self a as)
    have hr := parseJsonNode_roundtrip gen c a h1 h2 h3 h4 h5
    have hrest := ih c (fun n hn => h n (List.mem_cons_of_mem a hn))
    simp [mapCounter, hr, hrest]

theorem mapCounter_transitions_roundtrip (gen : Nat → String)
    (l : List ProcessTransition) (c : Nat) (h : ∀ t ∈ l, t.id ≠ "") :
    mapCounter (parseJsonTransition gen) c (l.map rawOfTransition) = (l, c) := by
  induction l generalizing c with
  | nil => rfl
  | cons a as ih =>
    have hr := parseJsonTransition_roundtrip gen c a (h a (List.mem_cons_self a as))
    have hrest := ih c (fun t ht => h t (List.mem_cons_of_mem a ht))
    simp [mapCounter, hr, hrest]

/-- A process whose single node carries a description, exhibiting the
information the JSON round trip loses. -/
def describedProcess : BusinessProcess :=
  { id := "p", name := "P", code := "p",
    nodes := [{ id := "a", type := .task, name := "A",
                description := some "keep me",
                position := { x := 0, y := 0 } }],
    transitions := [] }

/-- C3 counterexample: serializing `describedProcess` and re-importing it
through the canonical-JSON parser does not return the original value, since
the node mapping of parseJsonWorkflow drops the description field. -/
theorem C3_roundtrip_counterexample :
    (parseJsonWorkflow generateId (rawOfProcess describedProcess)).toOption
      ≠ some describedProcess := by decide

/-- C3 amended: the JSON round trip is exact for every BusinessProcess
whose nodes carry no description, assignee or formRef, and whose process
id, name and code, node ids and names, and transition ids are nonempty. -/
theorem C3_roundtrip_amended (gen : Nat → String) (p : BusinessProcess)
    (hid : p.id ≠ "") (hname : p.name ≠ "") (hcode : p.code ≠ "")
    (hnodes : ∀ n ∈ p.nodes, n.id ≠ "" ∧ n.name ≠ "" ∧
      n.description = none ∧ n.assignee = none ∧ n.formRef = none)
    (hts : ∀ t ∈ p.transitions, t.id ≠ "") :
    parseJsonWorkflow gen (rawOfProcess p) = .ok p := by
  cases p with
  | mk pid pname pcode pdesc pnodes ptrans =>
    simp only [BusinessProcess.id] at hid
    simp only [BusinessProcess.name] at hname
    simp only [BusinessProcess.code] at hcode
    simp only [BusinessProcess.nodes] at hnodes
    simp only [BusinessProcess.transitions] at hts
    simp [parseJsonWorkflow, rawOfProcess, idOrFresh, hid,
      mapCounter_nodes_roundtrip gen pnodes _ hnodes,
      mapCounter_transitions_roundtrip gen ptrans _ hts,
      jsOrStr, hname, hcode]

/-- Witness for the amended C3 round trip at a concrete process. -/
theorem C3_roundtrip_amended_witness :
    parseJsonWorkflow generateId (rawOfProcess sampleProcess)
      = .ok sampleProcess :=
  C3_roundtrip_amended generateId sampleProcess (by decide) (by decide)
    (by decide) (by decide) (by decide)

theorem foldl_append_eq (f : α → List β) (l : List α) :
    ∀ init : List β,
      l.foldl (fun acc a => acc ++ f a) init = init ++ (l.map f).flatten := by
  induction l with
  | nil => intro init; simp
  | cons a as ih => intro init; simp [ih, List.append_assoc]

theorem validateWorkflow_trans_mem (w : BusinessProcess)
    (t : ProcessTransition) (ht : t ∈ w.transitions) (x : String)
    (hx : x ∈ transWarnings (w.nodes.map (fun n => n.id)) t) :
    x ∈ validateWorkflow w := by
  simp only [validateWorkflow, foldl_append_eq, List.nil_append]
  refine List.mem_append.mpr (Or.inl (List.mem_append.mpr (Or.inl
    (List.mem_append.mpr (Or.inl ?_)))))
  exact List.mem_flatten.mpr ⟨_, List.mem_map.mpr ⟨t, ht, rfl⟩, hx⟩

theorem applyDagreLayout_nodes (oracle : String → Option Position)
    (w : BusinessProcess) :
    (applyDagreLayout oracle w).nodes.map (fun n => (n.id, n.type, n.name))
        = w.nodes.map (fun n => (n.id, n.type, n.name)) ∧
      (applyDagreLayout oracle w).transitions = w.transitions := by
  unfold applyDagreLayout
  split
  · exact ⟨rfl, rfl⟩
  · split
    · exact ⟨rfl, rfl⟩
    · refine ⟨?_, rfl⟩
      rw [List.map_map]
      refine List.map_congr_left ?_
      intro n _
      cases h : oracle n.id <;> simp [h]

/-- C6: a transition with an unknown target (resp. source) makes the
validator emit the matching warning, the pipeline result still succeeds
with the warnings attached, every declared node survives into the returned
workflow with its id, type and name, and validation is a total function
that leaves the model untouched. -/
theorem C6_dangling_transition_warnings (w : BusinessProcess)
    (oracle : String → Option Position) (fmt : WorkflowFormat)
    (t : ProcessTransition) (ht : t ∈ w.transitions) :
    (t.«to» ∉ w.nodes.map (fun n => n.id) →
      ("Transition references unknown target: " ++ t.«to»)
          ∈ validateWorkflow w ∧
        (finishPipeline fmt oracle w).warnings
          = some (validateWorkflow w)) ∧
    (t.«from» ∉ w.nodes.map (fun n => n.id) →
      ("Transition references unknown source: " ++ t.«from»)
          ∈ validateWorkflow w ∧
        (finishPipeline fmt oracle w).warnings
          = some (validateWorkflow w)) ∧
    (finishPipeline fmt oracle w).success = true ∧
    ((finishPipeline fmt oracle w).workflow.map
        (fun v => v.nodes.map (fun n => (n.id, n.type, n.name))))
      = some (w.nodes.map (fun n => (n.id, n.type, n.name))) ∧
    ((finishPipeline fmt oracle w).workflow.map (fun v => v.transitions))
      = some w.transitions := by
  have warnOf : ∀ x ∈ validateWorkflow w,
      (finishPipeline fmt oracle w).warnings = some (validateWorkflow w) := by
    intro x hx
    have hne : validateWorkflow w ≠ [] := List.ne_nil_of_mem hx
    have hlen : 0 < (validateWorkflow w).length := List.length_pos.mpr hne
    simp [finishPipeline, hlen]
  refine ⟨?_, ?_, by simp [finishPipeline], ?_, ?_⟩
  · intro hto
    have hx := validateWorkflow_trans_mem w t ht
      ("Transition references unknown target: " ++ t.«to») (by
        simp only [transWarnings, if_neg hto]
        exact List.mem_append_right _ (by simp))
    exact ⟨hx, warnOf _ hx⟩
  · intro hfrom
    have hx := validateWorkflow_trans_mem w t ht
      ("Transition references unknown source: " ++ t.«from») (by
        simp only [transWarnings, if_neg hfrom]
        exact List.mem_append_left _ (by simp))
    exact ⟨hx, warnOf _ hx⟩
  · simp [finishPipeline, (applyDagreLayout_nodes oracle w).1]
  · simp [finishPipeline, (applyDagreLayout_nodes oracle w).2]

/-- A process with one declared node and a transition whose target is
undeclared. -/
def danglingProcess : BusinessProcess :=
  { id := "p2", name := "Dangling", code := "dangling",
    nodes :=
      [{ id := "A", type := .start, name := "Begin", position := { x := 0, y := 0 } }],
    transitions := [{ id := "t1", «from» := "A", «to» := "Z" }] }

/-- Witness for C6 at a concrete dangling-target process. -/
theorem C6_dangling_transition_warnings_witness :
    ("Transition references unknown target: Z"
        ∈ validateWorkflow danglingProcess) ∧
      (finishPipeline .json (fun _ => none) danglingProcess).success = true :=
  have h := C6_dangling_transition_warnings danglingProcess (fun _ => none)
    .json { id := "t1", «from» := "A", «to» := "Z" } (by decide)
  ⟨(h.1 (by decide)).1, h.2.2.1⟩

theorem parseJsonWorkflow_error_nodes (gen : Nat → String) (parsed : RawParsed)
    (hn : (parsed.data.getD parsed.top).nodes = none) :
    parseJsonWorkflow gen parsed
      = .error "Invalid workflow JSON: missing nodes array" := by
  simp [parseJsonWorkflow, hn]

theorem parseJsonWorkflow_error_transitions (gen : Nat → String)
    (parsed : RawParsed) (ns : List RawNode)
    (hn : (parsed.data.getD parsed.top).nodes = some ns)
    (ht : (parsed.data.getD parsed.top).transitions = none)
    (he : (parsed.data.getD parsed.top).edges = none) :
    parseJsonWorkflow gen parsed
      = .error "Invalid workflow JSON: missing transitions/edges array" := by
  simp [parseJsonWorkflow, hn, ht, he]

theorem parseJsonWorkflow_ok_eq (gen : Nat → String) (parsed : RawParsed)
    (ns : List RawNode)
    (hn : (parsed.data.getD parsed.top).nodes = some ns)
    (hc : ¬((parsed.data.getD parsed.top).transitions = none ∧
            (parsed.data.getD parsed.top).edges = none)) :
    parseJsonWorkflow gen parsed = .ok
      { id := (idOrFresh gen 0 (parsed.data.getD parsed.top).id).1,
        name := jsOrStr (parsed.data.getD parsed.top).name "Workflow",
        code := jsOrStr (parsed.data.getD parsed.top).code "workflow",
        description := (parsed.data.getD parsed.top).description,
        nodes := (mapCounter (parseJsonNode gen)
          (idOrFresh gen 0 (parsed.data.getD parsed.top).id).2 ns).1,
        transitions := (mapCounter (parseJsonTransition gen)
          (mapCounter (parseJsonNode gen)
            (idOrFresh gen 0 (parsed.data.getD parsed.top).id).2 ns).2
          (match (parsed.data.getD parsed.top).transitions with
           | some l => l
           | none => (parsed.data.getD parsed.top).edges.getD [])).1 } := by
  simp [parseJsonWorkflow, hn, hc]

/-- C7: parseJsonWorkflow fails with a typed error exactly when the payload
(bare or enveloped) lacks a nodes array or lacks both a transitions and an
edges array; otherwise it returns a BusinessProcess with source/target
aliases normalized to from/to, synthesized ids for nodes and transitions
missing one, node type defaulting to task and position defaulting to the
origin; and the orchestrator surfaces the thrown error as a failure
envelope carrying the format tag. -/
theorem C7_json_parser_contract (gen : Nat → String)
    (oracle : String → Option Position) (parsed : RawParsed) :
    ((∃ e, parseJsonWorkflow gen parsed = .error e) ↔
      ((parsed.data.getD parsed.top).nodes = none ∨
       ((parsed.data.getD parsed.top).transitions = none ∧
        (parsed.data.getD parsed.top).edges = none))) ∧
    (∀ bp, parseJsonWorkflow gen parsed = .ok bp →
      (∀ ns, (parsed.data.getD parsed.top).nodes = some ns →
        bp.nodes.length = ns.length ∧
        (∀ (i : Nat) (rn : RawNode), ns[i]? = some rn →
          ∃ bn : ProcessNode, bp.nodes[i]? = some bn ∧
            (rn.type = none → bn.type = .task) ∧
            (rn.position = none → bn.position = { x := 0, y := 0 }) ∧
            (∀ s, rn.id = some s → s ≠ "" → bn.id = s) ∧
            (rn.id = none → ∃ c, bn.id = gen c))) ∧
      (∀ ts, ((parsed.data.getD parsed.top).transitions = some ts ∨
              ((parsed.data.getD parsed.top).transitions = none ∧
               (parsed.data.getD parsed.top).edges = some ts)) →
        bp.transitions.length = ts.length ∧
        (∀ (i : Nat) (rt : RawTransition), ts[i]? = some rt →
          ∃ bt : ProcessTransition, bp.transitions[i]? = some bt ∧
            (∀ s, rt.«from» = some s → s ≠ "" → bt.«from» = s) ∧
            (rt.«from» = none → ∀ s, rt.source = some s → s ≠ "" →
              bt.«from» = s) ∧
            (∀ s, rt.«to» = some s → s ≠ "" → bt.«to» = s) ∧
            (rt.«to» = none → ∀ s, rt.target = some s → s ≠ "" →
              bt.«to» = s) ∧
            bt.label = rt.label ∧ bt.condition = rt.condition ∧
            (rt.id = none → ∃ c, bt.id = gen c)))) ∧
    (((parsed.data.getD parsed.top).nodes = none ∨
      ((parsed.data.getD parsed.top).transitions = none ∧
       (parsed.data.getD parsed.top).edges = none)) →
      (normalizeJsonParsed gen oracle parsed).success = false ∧
      (normalizeJsonParsed gen oracle parsed).error.isSome = true ∧
      (normalizeJsonParsed gen oracle parsed).format = .json) := by
  have errOfCond : ((parsed.data.getD parsed.top).nodes = none ∨
      ((parsed.data.getD parsed.top).transitions = none ∧
       (parsed.data.getD parsed.top).edges = none)) →
      ∃ e, parseJsonWorkflow gen parsed = .error e := by
    intro h
    rcases hn : (parsed.data.getD parsed.top).nodes with _ | ns
    · exact ⟨_, parseJsonWorkflow_error_nodes gen parsed hn⟩
    · rcases h with h | ⟨h1, h2⟩
      · rw [hn] at h; cases h
      · exact ⟨_, parseJsonWorkflow_error_transitions gen parsed ns hn h1 h2⟩
  refine ⟨⟨?_, errOfCond⟩, ?_, ?_⟩
  · rintro ⟨e, he⟩
    by_contra hc
    push_neg at hc
    obtain ⟨hA, hB⟩ := hc
    rcases hn : (parsed.data.getD parsed.top).nodes with _ | ns
    · exact hA hn
    · rw [parseJsonWorkflow_ok_eq gen parsed ns hn (fun hand => hB hand.1 hand.2)]
        at he
      cases he
  · intro bp hbp
    rcases hn : (parsed.data.getD parsed.top).nodes with _ | ns0
    · rw [parseJsonWorkflow_error_nodes gen parsed hn] at hbp; cases hbp
    by_cases hcond : ((parsed.data.getD parsed.top).transitions = none ∧
        (parsed.data.getD parsed.top).edges = none)
    · rw [parseJsonWorkflow_error_transitions gen parsed ns0 hn hcond.1 hcond.2]
        at hbp
      cases hbp
    rw [parseJsonWorkflow_ok_eq gen parsed ns0 hn hcond] at hbp
    injection hbp with hbp
    subst hbp
    constructor
    · intro ns hns
      injection hns with h
      subst h
      refine ⟨by simp [mapCounter_length], ?_⟩
      intro i rn hrn
      obtain ⟨c', hc'⟩ := mapCounter_getElem? (parseJsonNode gen) ns0
        (idOrFresh gen 0 (parsed.data.getD parsed.top).id).2 i
      refine ⟨(parseJsonNode gen c' rn).1, by simp [hc', hrn], ?_, ?_, ?_, ?_⟩
      · intro h; simp [parseJsonNode, h]
      · intro h; simp [parseJsonNode, h]
      · intro s hs hse; simp [parseJsonNode, idOrFresh, hs, hse]
      · intro h; exact ⟨c', by simp [parseJsonNode, idOrFresh, h]⟩
    · intro ts hts
      have hmatch : (match (parsed.data.getD parsed.top).transitions with
           | some l => l
           | none => (parsed.data.getD parsed.top).edges.getD []) = ts := by
        rcases hts with h | ⟨h1, h2⟩
        · rw [h]
        · rw [h1, h2]; rfl
      rw [hmatch]
      refine ⟨by simp [mapCounter_length], ?_⟩
      intro i rt hrt
      obtain ⟨c', hc'⟩ := mapCounter_getElem? (parseJsonTransition gen) ts
        ((mapCounter (parseJsonNode gen)
          (idOrFresh gen 0 (parsed.data.getD parsed.top).id).2 ns0).2) i
      refine ⟨(parseJsonTransition gen c' rt).1, by simp [hc', hrt],
        ?_, ?_, ?_, ?_, ?_, ?_, ?_⟩
      · intro s hs hse; simp [parseJsonTransition, jsOrStr, hs, hse]
      · intro h s hs hse; simp [parseJsonTransition, jsOrStr, h, hs, hse]
      · intro s hs hse; simp [parseJsonTransition, jsOrStr, hs, hse]
      · intro h s hs hse; simp [parseJsonTransition, jsOrStr, h, hs, hse]
      · simp [parseJsonTransition]
      · simp [parseJsonTransition]
      · intro h; exact ⟨c', by simp [parseJsonTransition, idOrFresh, h]⟩
  · intro h
    obtain ⟨e, he⟩ := errOfCond h
    simp [normalizeJsonParsed, he]

/-- A payload with nodes but neither transitions nor edges. -/
def missingTransitionsPayload : RawParsed :=
  { data := none, top := { nodes := some [] } }

/-- Witness for C7: the failure envelope at a concrete faulty payload. -/
theorem C7_json_parser_contract_witness :
    (normalizeJsonParsed generateId (fun _ => none)
        missingTransitionsPayload).success = false ∧
      (normalizeJsonParsed generateId (fun _ => none)
        missingTransitionsPayload).error.isSome = true ∧
      (normalizeJsonParsed generateId (fun _ => none)
        missingTransitionsPayload).format = .json :=
  (C7_json_parser_contract generateId (fun _ => none)
    missingTransitionsPayload).2.2 (Or.inr ⟨rfl, rfl⟩)

-- ─────────────────────────────────────────────────────────────
-- Format detector (part_004, detectFormat, lines 30-60)
-- ─────────────────────────────────────────────────────────────

/-- JS whitespace removed by `String.prototype.trim` (ASCII subset; the
inputs of interest contain no exotic Unicode spaces). -/
def isJsWs (c : Char) : Bool :=
  c = ' ' || c = '\t' || c = '\n' || c = '\r' || c = '\x0b' || c = '\x0c'

def trimLeftChars : List Char → List Char
  | [] => []
  | c :: cs => if isJsWs c then trimLeftChars cs else c :: cs

/-- Models `s.trim()`. -/
def jsTrimChars (cs : List Char) : List Char :=
  ((trimLeftChars cs).reverse |> trimLeftChars).reverse

def jsTrim (s : String) : String := String.mk (jsTrimChars s.data)

def isPrefixL : List Char → List Char → Bool
  | [], _ => true
  | _ :: _, [] => false
  | p :: ps, c :: cs => p = c && isPrefixL ps cs

def hasSubstr (cs pat : List Char) : Bool :=
  match cs with
  | [] => pat.isEmpty
  | _ :: rest => isPrefixL pat cs || hasSubstr rest pat

/-- Models `s.startsWith(p)`. -/
def strStartsWith (s p : String) : Bool := isPrefixL p.data s.data

/-- Models `s.includes(p)`. -/
def strIncludes (s p : String) : Bool := hasSubstr s.data p.data

-- The JSON grammar accepted by `JSON.parse` (ECMA-404), as a
-- recursive-descent validity checker over the character list.

def isJsonWs (c : Char) : Bool := c = ' ' || c = '\t' || c = '\n' || c = '\r'

def skipWs : List Char → List Char
  | [] => []
  | c :: cs => if isJsonWs c then skipWs cs else c :: cs

def isDigit (c : Char) : Bool := '0' ≤ c && c ≤ '9'

def isHexDigit (c : Char) : Bool :=
  isDigit c || ('a' ≤ c && c ≤ 'f') || ('A' ≤ c && c ≤ 'F')

/-- Consumes a JSON string body after the opening quote; returns the rest. -/
def chompJsonString : List Char → Option (List Char)
  | [] => none
  | c :: cs =>
    if c = '"' then some cs
    else if c = '\\' then
      match cs with
      | [] => none
      | e :: cs2 =>
        if e = '"' || e = '\\' || e = '/' || e = 'b' || e = 'f' || e = 'n' ||
            e = 'r' || e = 't' then chompJsonString cs2
        else if e = 'u' then
          match cs2 with
          | h1 :: h2 :: h3 :: h4 :: cs3 =>
            if isHexDigit h1 && isHexDigit h2 && isHexDigit h3 && isHexDigit h4
            then chompJsonString cs3 else none
          | _ => none
        else none
    else if c.toNat < 32 then none
    else chompJsonString cs

/-- Consumes the fraction and exponent parts of a JSON number. -/
def chompFracExp (cs : List Char) : Option (List Char) :=
  let afterFrac : Option (List Char) :=
    match cs with
    | '.' :: r =>
      match r with
      | c :: _ => if isDigit c then some (r.dropWhile isDigit) else none
      | [] => none
    | _ => some cs
  match afterFrac with
  | none => none
  | some cs2 =>
    match cs2 with
    | e :: r =>
      if e = 'e' || e = 'E' then
        let r2 := match r with
          | '+' :: rr => rr
          | '-' :: rr => rr
          | _ => r
        match r2 with
        | c :: _ => if isDigit c then some (r2.dropWhile isDigit) else none
        | [] => none
      else some cs2
    | [] => some cs2

/-- Consumes a JSON number. -/
def chompJsonNumber (cs : List Char) : Option (List Char) :=
  let cs1 := match cs with
    | '-' :: r => r
    | _ => cs
  match cs1 with
  | '0' :: r => chompFracExp r
  | c :: r => if isDigit c then chompFracExp (r.dropWhile isDigit) else none
  | [] => none

/-- Consumes the members of a JSON object after the opening brace and
leading whitespace; `pv` is the value parser one nesting level down. -/
def chompMembers (pv : List Char → Option (List Char)) :
    Nat → List Char → Option (List Char)
  | 0, _ => none
  | f + 1, cs =>
    match cs with
    | '"' :: r =>
      match chompJsonString r with
      | none => none
      | some r2 =>
        match skipWs r2 with
        | ':' :: r3 =>
          match pv (skipWs r3) with
          | none => none
          | some r4 =>
            match skipWs r4 with
            | ',' :: r5 => chompMembers pv f (skipWs r5)
            | '}' :: r5 => some r5
            | _ => none
        | _ => none
    | _ => none

/-- Consumes the elements of a JSON array after the opening bracket and
leading whitespace. -/
def chompElements (pv : List Char → Option (List Char)) :
    Nat → List Char → Option (List Char)
  | 0, _ => none
  | f + 1, cs =>
    match pv cs with
    | none => none
    | some r =>
      match skipWs r with
      | ',' :: r2 => chompElements pv f (skipWs r2)
      | ']' :: r2 => some r2
      | _ => none

/-- Consumes one JSON value; fuel bounds nesting depth and member count. -/
def chompJsonValue : Nat → List Char → Option (List Char)
  | 0, _ => none
  | f + 1, cs =>
    match cs with
    | '"' :: r => chompJsonString r
    | '{' :: r =>
      (match skipWs r with
       | '}' :: r2 => some r2
       | r2 => chompMembers (chompJsonValue f) (f + 1) r2)
    | '[' :: r =>
      (match skipWs r with
       | ']' :: r2 => some r2
       | r2 => chompElements (chompJsonValue f) (f + 1) r2)
    | 't' :: 'r' :: 'u' :: 'e' :: r => some r
    | 'f' :: 'a' :: 'l' :: 's' :: 'e' :: r => some r
    | 'n' :: 'u' :: 'l' :: 'l' :: r => some r
    | _ => chompJsonNumber cs

/-- Models success of `JSON.parse(s)`. -/
def jsonValid (s : String) : Bool :=
  match chompJsonValue (s.data.length + 1) (skipWs s.data) with
  | some r => (skipWs r).isEmpty
  | none => false

/-- detectFormat (part_004 lines 30-60); the nested JSON try and the
fall-through of the marker-less XML branch are flattened into one guarded
decision chain with identical outcomes. -/
def detectFormat (content : String) : WorkflowFormat :=
  let trimmed := jsTrim content
  if (strStartsWith trimmed "\x7b" || strStartsWith trimmed "[") &&
      jsonValid trimmed then .json
  else if (strIncludes trimmed "<?xml" || strStartsWith trimmed "<") &&
      (strIncludes trimmed "StateMachine" ||
       strIncludes trimmed "xmlns=\x22http://schemas.microsoft.com/netfx")
    then .xaml
  else if (strIncludes trimmed "<?xml" || strStartsWith trimmed "<") &&
      (strIncludes trimmed "bpmn:" ||
       (strIncludes trimmed "definitions" && strIncludes trimmed "process"))
    then .bpmn
  else if strStartsWith trimmed "graph " || strStartsWith trimmed "flowchart " ||
      strStartsWith trimmed "stateDiagram" then .mermaid
  else .natural

-- Spec-side predicates for the amended C8 decision order.

def looksLikeJson (t : String) : Bool :=
  strStartsWith t "\x7b" || strStartsWith t "["

def looksLikeXml (t : String) : Bool :=
  strIncludes t "<?xml" || strStartsWith t "<"

def hasStateMachineMarkers (t : String) : Bool :=
  strIncludes t "StateMachine" ||
    strIncludes t "xmlns=\x22http://schemas.microsoft.com/netfx"

def hasBpmnMarkers (t : String) : Bool :=
  strIncludes t "bpmn:" ||
    (strIncludes t "definitions" && strIncludes t "process")

def hasDiagramHeader (t : String) : Bool :=
  strStartsWith t "graph " || strStartsWith t "flowchart " ||
    strStartsWith t "stateDiagram"

/-- The amended decision order, following the corrected claim text: JSON is
attempted only for trimmed text beginning with a brace or bracket; XML-ness
means containing an XML prolog anywhere or beginning with a tag; a
marker-less XML text falls through to the diagram-header check. -/
def detectFormatSpec (content : String) : WorkflowFormat :=
  let t := jsTrim content
  if looksLikeJson t && jsonValid t then .json
  else if looksLikeXml t && hasStateMachineMarkers t then .xaml
  else if looksLikeXml t && hasBpmnMarkers t then .bpmn
  else if hasDiagramHeader t then .mermaid
  else .natural

/-- C8 counterexample: the text `5` successfully parses as JSON, yet
detectFormat classifies it as free text, because the code only attempts
JSON after seeing a leading brace or bracket. -/
theorem C8_detectFormat_counterexample :
    jsonValid "5" = true ∧ detectFormat "5" = .natural := by decide

/-- C8 amended: detectFormat follows the corrected decision order — JSON
only for texts whose trimmed form starts with a brace or bracket and parses
as JSON; then the XML-marker branches; then the diagram-header check; free
text otherwise. -/
theorem C8_detectFormat_amended (s : String) :
    detectFormat s = detectFormatSpec s := rfl

-- ─────────────────────────────────────────────────────────────
-- Flow-text parser (part_004, parseMermaidWorkflow, lines 247-309)
-- ─────────────────────────────────────────────────────────────

/-- Models `content.split(chr(10))` over the character list. -/
def splitLines : List Char → List (List Char)
  | [] => [[]]
  | c :: cs =>
    if c = '\n' then [] :: splitLines cs
    else
      match splitLines cs with
      | [] => [[c]]
      | l :: ls => (c :: l) :: ls

/-- The `\w` character class of JS regexes (ASCII word characters). -/
def isWordChar (c : Char) : Bool :=
  ('a' ≤ c && c ≤ 'z') || ('A' ≤ c && c ≤ 'Z') || isDigit c || c = '_'

/-- The `\s` characters that can occur inside a single trimmed line. -/
def isJsSpace (c : Char) : Bool :=
  c = ' ' || c = '\t' || c = '\x0b' || c = '\x0c' || c = '\r'

/-- ASCII lowering, modelling `toLowerCase` on the identifiers at hand. -/
def asciiLower (c : Char) : Char :=
  if 'A' ≤ c && c ≤ 'Z' then Char.ofNat (c.toNat + 32) else c

/-- Node shapes recognized by the node-declaration pattern. -/
inductive MermaidShape where
  | square
  | circle
  | diamond
deriving DecidableEq

/-- The anchored node-declaration regex of line 260,
`^(\w+)` followed by a bracketed, double-parenthesized or braced label.
The alternatives start with distinct non-word characters, so the greedy
`\w+` never needs backtracking and the match is deterministic. -/
def matchNodeDecl (cs : List Char) : Option (String × String × MermaidShape) :=
  let idPart := cs.takeWhile isWordChar
  let rest := cs.dropWhile isWordChar
  if idPart.isEmpty then none
  else
    match rest with
    | '[' :: r =>
      let lab := r.takeWhile (fun c => !(c = ']'))
      (if lab.isEmpty then none
       else match r.dropWhile (fun c => !(c = ']')) with
        | ']' :: _ => some (String.mk idPart, String.mk lab, .square)
        | _ => none)
    | '(' :: '(' :: r =>
      let lab := r.takeWhile (fun c => !(c = ')'))
      (if lab.isEmpty then none
       else match r.dropWhile (fun c => !(c = ')')) with
        | ')' :: ')' :: _ => some (String.mk idPart, String.mk lab, .circle)
        | _ => none)
    | '{' :: r =>
      let lab := r.takeWhile (fun c => !(c = '}'))
      (if lab.isEmpty then none
       else match r.dropWhile (fun c => !(c = '}')) with
        | '}' :: _ => some (String.mk idPart, String.mk lab, .diamond)
        | _ => none)
    | _ => none

/-- One anchored attempt of the transition regex of line 276,
`(\w+)\s*--+>?\s*(?:|([^|]+)|)?\s*(\w+)` with the label group delimited by
pipes; reproduces the JS engine outcome: the character classes of adjacent
pattern pieces are disjoint, so greedy matching with the single fallback
for the optional label group is exhaustive. -/
def matchTransAt (cs : List Char) : Option (String × Option String × String) :=
  let w1 := cs.takeWhile isWordChar
  let r1 := cs.dropWhile isWordChar
  if w1.isEmpty then none
  else
    let r2 := r1.dropWhile isJsSpace
    let dashes := r2.takeWhile (fun c => c = '-')
    let r3 := r2.dropWhile (fun c => c = '-')
    if dashes.length < 2 then none
    else
      let r4 := match r3 with
        | '>' :: rr => rr
        | _ => r3
      let r5 := r4.dropWhile isJsSpace
      let noLabel : List Char → Option (String × Option String × String) :=
        fun rr =>
          let w2 := rr.takeWhile isWordChar
          if w2.isEmpty then none
          else some (String.mk w1, none, String.mk w2)
      match r5 with
      | '|' :: r6 =>
        let lab := r6.takeWhile (fun c => !(c = '|'))
        (if lab.isEmpty then noLabel r5
         else match r6.dropWhile (fun c => !(c = '|')) with
          | '|' :: r8 =>
            let r9 := r8.dropWhile isJsSpace
            let w2 := r9.takeWhile isWordChar
            if w2.isEmpty then noLabel r5
            else some (String.mk w1, some (String.mk lab), String.mk w2)
          | _ => noLabel r5)
      | _ => noLabel r5

/-- Leftmost match of the unanchored transition regex: try every start
position left to right, as the JS engine does. -/
def findTransMatch : List Char → Option (String × Option String × String)
  | [] => none
  | c :: cs =>
    match matchTransAt (c :: cs) with
    | some r => some r
    | none => findTransMatch cs

/-- The mutable loop state of parseMermaidWorkflow: the nodes and
transitions arrays, the keys of nodeMap, and the id-supply counter. -/
structure MermaidState where
  nodes : List ProcessNode
  transitions : List ProcessTransition
  seen : List String
  counter : Nat

/-- The loop body of parseMermaidWorkflow for one content line
(lines 258-299). -/
def mermaidLineStep (gen : Nat → String) (st : MermaidState)
    (line : List Char) : MermaidState :=
  let st1 : MermaidState :=
    match matchNodeDecl line with
    | some (id, label, shape) =>
      let ty : ProcessNodeType :=
        match shape with
        | .square => .task
        | .circle =>
          if strIncludes (String.mk (id.data.map asciiLower)) "start"
          then .start else .«end»
        | .diamond => .gateway
      if id ∈ st.seen then st
      else { st with
        nodes := st.nodes ++
          [{ id := id, type := ty, name := label, position := { x := 0, y := 0 } }],
        seen := st.seen ++ [id] }
    | none => st
  match findTransMatch line with
  | some (f, lab, t) =>
    let st2 : MermaidState :=
      if f ∈ st1.seen then st1
      else { st1 with
        nodes := st1.nodes ++
          [{ id := f, type := .task, name := f, position := { x := 0, y := 0 } }],
        seen := st1.seen ++ [f] }
    let st3 : MermaidState :=
      if t ∈ st2.seen then st2
      else { st2 with
        nodes := st2.nodes ++
          [{ id := t, type := .task, name := t, position := { x := 0, y := 0 } }],
        seen := st2.seen ++ [t] }
    { st3 with
      transitions := st3.transitions ++
        [{ id := gen st3.counter, «from» := f, «to» := t, label := lab }],
      counter := st3.counter + 1 }
  | none => st1

/-- parseMermaidWorkflow (part_004 lines 247-309): split into trimmed
nonempty non-comment lines, skip the header line, then scan each line for a
node declaration and a transition. -/
def parseMermaidWorkflow (gen : Nat → String) (content : String) :
    BusinessProcess :=
  let lines := (splitLines content.data).map jsTrimChars
  let lines := lines.filter (fun l => !l.isEmpty && !(isPrefixL "%%".data l))
  let contentLines := lines.drop 1
  let st := contentLines.foldl (mermaidLineStep gen)
    { nodes := [], transitions := [], seen := [], counter := 0 }
  { id := gen st.counter, name := "Mermaid Workflow",
    code := "mermaid-workflow",
    description := some "Imported from Mermaid diagram",
    nodes := st.nodes, transitions := st.transitions }

/-- The flow-text scenario input of the spec: a header line, a combined
node-and-edge line, and a labelled edge line. -/
def mermaidScenario : String :=
  "flowchart TD\nA[Start Task]-->B\x7bDecide\x7d\nB-->|yes|C[End]"

/-- C2: evaluating parseMermaidWorkflow at the scenario input shows what
the code actually produces: three nodes all typed task (B is never parsed
as a gateway because the node pattern is anchored to line start, and C is
only lazily created), and a single transition B→C labelled yes (the
closing bracket before the arrow prevents any transition match on the
second line) — not the expected task/gateway/task typing with the two
transitions A→B and B→C. -/
theorem C2_mermaid_scenario_eval :
    ((parseMermaidWorkflow generateId mermaidScenario).nodes.map
        (fun n => (n.id, n.type))
      = [("A", .task), ("B", .task), ("C", .task)]) ∧
    ((parseMermaidWorkflow generateId mermaidScenario).transitions.map
        (fun t => (t.«from», t.«to», t.label))
      = [("B", "C", some "yes")]) := by decide

-- ─────────────────────────────────────────────────────────────
-- Pure layout engine (src/src/lib/workflow-layout.ts)
-- ─────────────────────────────────────────────────────────────

/-- Layout directions (workflow-layout.ts line 11). -/
inductive LayoutDirection where
  | TB
  | LR
deriving DecidableEq

/-- LayoutOptions (lines 10-18), integer-valued as in DEFAULT_OPTIONS. -/
structure LayoutOptions where
  direction : LayoutDirection
  nodeWidth : Int
  nodeHeight : Int
  horizontalGap : Int
  verticalGap : Int
  marginX : Int
  marginY : Int
deriving DecidableEq

/-- DEFAULT_OPTIONS (lines 20-28). -/
def DEFAULT_OPTIONS : LayoutOptions :=
  { direction := .TB, nodeWidth := 150, nodeHeight := 50,
    horizontalGap := 80, verticalGap := 100, marginX := 50, marginY := 50 }

/-- Keeps the first occurrence of every id, as the keys of a JS Map built
by repeated `set`. -/
def dedupFirst : List String → List String
  | [] => []
  | a :: as => a :: (dedupFirst as).filter (fun x => !(x = a))

/-- The transitions with both endpoints declared (the guard of
lines 53-58). -/
def validTransitions (nodes : List ProcessNode) (ts : List ProcessTransition) :
    List ProcessTransition :=
  ts.filter (fun t => nodes.any (fun n => n.id == t.«from») &&
    nodes.any (fun n => n.id == t.«to»))

/-- The outgoing adjacency map of lines 45-58, entries in node insertion
order, each target list in transition order. -/
def outgoingEntries (nodes : List ProcessNode) (ts : List ProcessTransition) :
    List (String × List String) :=
  (dedupFirst (nodes.map (fun n => n.id))).map
    (fun id => (id, ((validTransitions nodes ts).filter
      (fun t => t.«from» == id)).map (fun t => t.«to»)))

/-- The incoming adjacency map of lines 45-58. -/
def incomingEntries (nodes : List ProcessNode) (ts : List ProcessTransition) :
    List (String × List String) :=
  (dedupFirst (nodes.map (fun n => n.id))).map
    (fun id => (id, ((validTransitions nodes ts).filter
      (fun t => t.«to» == id)).map (fun t => t.«from»)))

/-- `map.get(id) || []`. -/
def assocGet (entries : List (String × List String)) (id : String) :
    List String :=
  match entries.find? (fun p => p.1 == id) with
  | some p => p.2
  | none => []

/-- The mutable state of assignLayers: the nodeLayer map in insertion
order, and the visited and inProgress sets. -/
structure LayerState where
  nodeLayer : List (String × Int)
  visited : List String
  inProgress : List String
deriving DecidableEq

/-- `nodeLayer.get(id)`. -/
def lookupLayer (s : LayerState) (id : String) : Option Int :=
  (s.nodeLayer.find? (fun p => p.1 == id)).map (fun p => p.2)

/-- The predecessor loop of dfs (lines 111-117): recurse into predecessors
not currently in progress, folding the running maximum layer. -/
def dfsPreds (recur : LayerState → String → Option (Int × LayerState)) :
    List String → Int → LayerState → Option (Int × LayerState)
  | [], maxChild, s => some (maxChild, s)
  | p :: ps, maxChild, s =>
    if p ∈ s.inProgress then dfsPreds recur ps maxChild s
    else
      match recur s p with
      | none => none
      | some (pl, s1) => dfsPreds recur ps (max maxChild pl) s1

/-- The dfs of assignLayers (lines 95-124), with explicit fuel bounding
the recursion depth; `none` marks fuel exhaustion, which the totality
theorem rules out for the fuel assignLayers supplies. -/
def dfs (incoming : String → List String) :
    Nat → LayerState → String → Int → Option (Int × LayerState)
  | 0, _, _, _ => none
  | fuel + 1, s, nodeId, minLayer =>
    match lookupLayer s nodeId with
    | some l => some (l, s)
    | none =>
      if nodeId ∈ s.inProgress then some (minLayer, s)
      else
        let s1 : LayerState :=
          { s with inProgress := s.inProgress ++ [nodeId],
                   visited := s.visited ++ [nodeId] }
        match dfsPreds (fun st p => dfs incoming fuel st p 0)
            (incoming nodeId) (minLayer - 1) s1 with
        | none => none
        | some (maxChild, s2) =>
          some (maxChild + 1,
            { s2 with nodeLayer := s2.nodeLayer ++ [(nodeId, maxChild + 1)],
                      inProgress := s2.inProgress.erase nodeId })

/-- The two dfs loops of assignLayers (lines 84-136): the start nodes
(start-typed or without incoming edges, else the first node), then every
node not yet visited.  The `outgoing` argument of the source function is
unused there and omitted here. -/
def assignLayersState (nodes : List ProcessNode)
    (incoming : String → List String) : Option LayerState :=
  let fuel := nodes.length + 1
  let startNodes0 := nodes.filter
    (fun n => n.type == .start || (incoming n.id).isEmpty)
  let startNodes := if startNodes0.isEmpty then nodes.take 1 else startNodes0
  let s0 : LayerState := { nodeLayer := [], visited := [], inProgress := [] }
  let afterStarts := startNodes.foldl
    (fun acc n => acc.bind
      (fun s => (dfs incoming fuel s n.id 0).map (fun r => r.2)))
    (some s0)
  nodes.foldl
    (fun acc n => acc.bind (fun s =>
      if n.id ∈ s.visited then some s
      else (dfs incoming fuel s n.id 0).map (fun r => r.2)))
    afterStarts

/-- The grouping loop of assignLayers (lines 138-148): one bucket per
layer index up to the maximum, in nodeLayer insertion order, empty buckets
dropped. -/
def groupLayers (nodeLayer : List (String × Int)) : List (List String) :=
  let maxLayer : Int := (nodeLayer.map (fun p => p.2)).foldl max 0
  ((List.range (maxLayer.toNat + 1)).map
    (fun (i : Nat) => (nodeLayer.filter (fun p => p.2 == (i : Int))).map
      (fun p => p.1))).filter (fun l => !l.isEmpty)

/-- assignLayers (lines 74-149). -/
def assignLayers (nodes : List ProcessNode)
    (incoming : String → List String) : Option (List (List String)) :=
  (assignLayersState nodes incoming).map (fun s => groupLayers s.nodeLayer)

/-- Comparator order on barycenters: `none` stands for the Infinity
sentinel of line 225; ties, including two Infinities, compare equal, as
the numeric comparator of line 230 does. -/
def keyLt : Option Rat → Option Rat → Bool
  | some a, some b => a < b
  | some _, none => true
  | none, _ => false

/-- Inserts after every element not strictly greater: combined with a
left fold this is a stable ascending sort, matching the ES2019
Array.prototype.sort contract. -/
def stableInsert (key : α → Option Rat) (x : α) : List α → List α
  | [] => [x]
  | y :: ys =>
    if keyLt (key x) (key y) then x :: y :: ys
    else y :: stableInsert key x ys

/-- Stable sort by barycenter key. -/
def stableSortByKey (key : α → Option Rat) (l : List α) : List α :=
  l.foldl (fun acc x => stableInsert key x acc) []

/-- The barycenter of one node relative to the reference layer
(lines 196-227): mean reference rank of its predecessors (down pass,
scanning the outgoing entries) or successors (up pass). -/
def barycenterKey (outEntries : List (String × List String))
    (refPositions : List (String × Nat)) (down : Bool) (nodeId : String) :
    Option Rat :=
  let neighbors :=
    if down then
      (outEntries.filter (fun p => nodeId ∈ p.2)).map (fun p => p.1)
    else assocGet outEntries nodeId
  let hits := neighbors.filterMap (fun nb =>
    (refPositions.find? (fun q => q.1 == nb)).map (fun q => q.2))
  if hits.length > 0 then
    some ((hits.foldl (fun acc (v : Nat) => acc + (v : Rat)) 0) /
      (hits.length : Rat))
  else none

/-- orderLayerByBarycenter (lines 180-234). -/
def orderLayerByBarycenter (outEntries : List (String × List String))
    (layers : List (List String)) (layerIndex : Nat) (down : Bool) :
    List (List String) :=
  let refIdx := if down then layerIndex - 1 else layerIndex + 1
  match layers[refIdx]? with
  | none => layers
  | some refLayer =>
    if refLayer.isEmpty then layers
    else
      let refPositions := refLayer.enum.map (fun p => (p.2, p.1))
      let layer := layers.getD layerIndex []
      layers.set layerIndex
        (stableSortByKey (barycenterKey outEntries refPositions down) layer)

/-- orderNodesInLayers (lines 155-175): four sweeps, each a forward
(downward) pass over layers 1.. and a backward (upward) pass over layers
..len−2. -/
def orderNodesInLayers (layers : List (List String))
    (outEntries : List (String × List String)) : List (List String) :=
  (List.range 4).foldl
    (fun ls _ =>
      let down := (List.range ls.length).foldl
        (fun acc i =>
          if 1 ≤ i then orderLayerByBarycenter outEntries acc i true else acc)
        ls
      (List.range (down.length - 1)).reverse.foldl
        (fun acc i => orderLayerByBarycenter outEntries acc i false) down)
    layers

/-- The coordinates assignPositions computes for the node at rank
`nodeIndex` of the layer at `layerIndex` with `layerSize` nodes
(lines 246-271). -/
def positionOfEntry (opts : LayoutOptions) (layerIndex : Nat)
    (layerSize : Nat) (nodeIndex : Nat) (nodeId : String) :
    String × Position :=
  let vertical := opts.direction = .TB
  let totalSpan : Int :=
    if vertical then
      ((layerSize : Int) - 1) * (opts.nodeWidth + opts.horizontalGap)
    else
      ((layerSize : Int) - 1) * (opts.nodeHeight + opts.verticalGap)
  if vertical then
    (nodeId, Position.mk
      (opts.marginX +
        ((nodeIndex : Int) * (opts.nodeWidth + opts.horizontalGap)
          - totalSpan / 2) + 400)
      (opts.marginY + (layerIndex : Int) * (opts.nodeHeight + opts.verticalGap)))
  else
    (nodeId, Position.mk
      (opts.marginX + (layerIndex : Int) * (opts.nodeWidth + opts.horizontalGap))
      (opts.marginY +
        ((nodeIndex : Int) * (opts.nodeHeight + opts.verticalGap)
          - totalSpan / 2) + 300))

/-- assignPositions (lines 239-273) as the id-to-position assignment its
in-place writes produce. -/
def positionsOfLayers (opts : LayoutOptions) (layers : List (List String)) :
    List (String × Position) :=
  (layers.enum.map (fun li =>
    li.2.enum.map (fun ni => positionOfEntry opts li.1 li.2.length ni.1 ni.2))).flatten

/-- applyLayout of workflow-layout.ts (lines 34-68): adjacency, layering,
ordering, positioning; the in-place node mutation becomes a rebuilt node
list, `none` marks layering fuel exhaustion. -/
def applyLayout (nodes : List ProcessNode) (ts : List ProcessTransition)
    (opts : LayoutOptions) : Option (List ProcessNode) :=
  if nodes.isEmpty then some nodes
  else
    let out := outgoingEntries nodes ts
    let inc := incomingEntries nodes ts
    (assignLayers nodes (assocGet inc)).map (fun layers =>
      let ordered := orderNodesInLayers layers out
      let pos := positionsOfLayers opts ordered
      nodes.map (fun n =>
        match pos.find? (fun p => p.1 == n.id) with
        | some p => { n with position := p.2 }
        | none => n))

/-- The keys of the nodeLayer map. -/
def layerKeys (s : LayerState) : List String := s.nodeLayer.map Prod.fst

theorem lookupLayer_none_iff (s : LayerState) (id : String) :
    lookupLayer s id = none ↔ id ∉ layerKeys s := by
  unfold lookupLayer
  rw [Option.map_eq_none', List.find?_eq_none]
  simp only [layerKeys, List.mem_map, beq_iff_eq]
  constructor
  · rintro h ⟨p, hp, hid⟩
    exact h p hp hid
  · rintro h p hp hid
    exact h ⟨p, hp, hid⟩

theorem lookupLayer_some_mem (s : LayerState) (id : String) (l : Int)
    (h : lookupLayer s id = some l) : (id, l) ∈ s.nodeLayer := by
  unfold lookupLayer at h
  rw [Option.map_eq_some'] at h
  obtain ⟨p, hp, hl⟩ := h
  have hmem := List.mem_of_find?_eq_some hp
  have hkey : p.1 = id := by
    have := List.find?_some hp
    simpa [beq_iff_eq] using this
  have hpl : p = (id, l) := by
    cases p
    simp only at hkey hl
    simp [hkey, hl]
  rwa [hpl] at hmem

/-- The invariants dfs maintains on the layer state, relative to the set
of declared node ids. -/
structure LayerInv (allIds : List String) (s : LayerState) : Prop where
  keysNodup : (layerKeys s).Nodup
  keysSub : ∀ k ∈ layerKeys s, k ∈ allIds
  keysProg : ∀ k ∈ layerKeys s, k ∉ s.inProgress
  valsNonneg : ∀ p ∈ s.nodeLayer, 0 ≤ p.2
  visitedEq : ∀ v, v ∈ s.visited ↔ (v ∈ layerKeys s ∨ v ∈ s.inProgress)

/-- What a completed dfs call guarantees: invariants preserved, the
inProgress set restored, the layer map only extended, a nonnegative
result, visited only grown. -/
def DfsPost (allIds : List String) (s : LayerState) (l : Int)
    (s' : LayerState) : Prop :=
  LayerInv allIds s' ∧ s'.inProgress = s.inProgress ∧
  (∃ new, s'.nodeLayer = s.nodeLayer ++ new) ∧ 0 ≤ l ∧
  (∀ v ∈ s.visited, v ∈ s'.visited)

theorem dfsPreds_spec (allIds : List String)
    (recur : LayerState → String → Option (Int × LayerState))
    (hrec : ∀ st p l st', LayerInv allIds st → p ∈ allIds →
      recur st p = some (l, st') → DfsPost allIds st l st') :
    ∀ (ps : List String) (acc : Int) (st : LayerState) (r : Int × LayerState),
      dfsPreds recur ps acc st = some r →
      LayerInv allIds st → (∀ p ∈ ps, p ∈ allIds) →
      LayerInv allIds r.2 ∧ r.2.inProgress = st.inProgress ∧
      (∃ new, r.2.nodeLayer = st.nodeLayer ++ new) ∧ acc ≤ r.1 ∧
      (∀ v ∈ st.visited, v ∈ r.2.visited) := by
  intro ps
  induction ps with
  | nil =>
    intro acc st r h hinv _
    cases h
    exact ⟨hinv, rfl, ⟨[], by simp⟩, le_refl _, fun v hv => hv⟩
  | cons p ps ih =>
    intro acc st r h hinv hsub
    rw [dfsPreds] at h
    by_cases hip : p ∈ st.inProgress
    · rw [if_pos hip] at h
      exact ih acc st r h hinv (fun q hq => hsub q (List.mem_cons_of_mem p hq))
    · rw [if_neg hip] at h
      cases hr : recur st p with
      | none => rw [hr] at h; cases h
      | some pr =>
        rw [hr] at h
        have hpost := hrec st p pr.1 pr.2 hinv (hsub p (List.mem_cons_self p ps))
          (by rw [hr])
        obtain ⟨hinv1, hprog1, ⟨new1, hpre1⟩, _, hvis1⟩ := hpost
        have hrest := ih (max acc pr.1) pr.2 r h hinv1
          (fun q hq => hsub q (List.mem_cons_of_mem p hq))
        obtain ⟨hinv2, hprog2, ⟨new2, hpre2⟩, hacc2, hvis2⟩ := hrest
        refine ⟨hinv2, by rw [hprog2, hprog1], ⟨new1 ++ new2, ?_⟩,
          le_trans (le_max_left acc pr.1) hacc2,
          fun v hv => hvis2 v (hvis1 v hv)⟩
        rw [hpre2, hpre1, List.append_assoc]

theorem dfs_spec (incoming : String → List String) (allIds : List String)
    (hinc : ∀ id p, p ∈ incoming id → p ∈ allIds) :
    ∀ (fuel : Nat) (s : LayerState) (nodeId : String) (minLayer : Int)
      (r : Int × LayerState),
      dfs incoming fuel s nodeId minLayer = some r →
      LayerInv allIds s → nodeId ∈ allIds → 0 ≤ minLayer →
      DfsPost allIds s r.1 r.2 ∧
      (nodeId ∈ layerKeys r.2 ∨ nodeId ∈ s.inProgress) := by
  intro fuel
  induction fuel with
  | zero => intro s nodeId minLayer r h; cases h
  | succ fuel ih =>
    intro s nodeId minLayer r h hinv hmem hmin
    rw [dfs] at h
    cases hl : lookupLayer s nodeId with
    | some l =>
      simp only [hl] at h
      cases h
      refine ⟨⟨hinv, rfl, ⟨[], by simp⟩, ?_, fun v hv => hv⟩, Or.inl ?_⟩
      · exact hinv.valsNonneg _ (lookupLayer_some_mem s nodeId l hl)
      · exact List.mem_map.mpr ⟨(nodeId, l), lookupLayer_some_mem s nodeId l hl, rfl⟩
    | none =>
      simp only [hl] at h
      by_cases hip : nodeId ∈ s.inProgress
      · rw [if_pos hip] at h
        cases h
        exact ⟨⟨hinv, rfl, ⟨[], by simp⟩, hmin, fun v hv => hv⟩, Or.inr hip⟩
      · rw [if_neg hip] at h
        have hnk : nodeId ∉ layerKeys s := (lookupLayer_none_iff s nodeId).mp hl
        have hinv1 : LayerInv allIds
            { s with inProgress := s.inProgress ++ [nodeId],
                     visited := s.visited ++ [nodeId] } := by
          refine ⟨hinv.keysNodup, hinv.keysSub, ?_, hinv.valsNonneg, ?_⟩
          · intro k hk
            simp only [List.mem_append, List.mem_singleton]
            rintro (hkS | hkN)
            · exact hinv.keysProg k hk hkS
            · exact hnk (hkN ▸ hk)
          · intro v
            simp only [List.mem_append, List.mem_singleton, hinv.visitedEq v,
              layerKeys]
            tauto
        cases hdp : dfsPreds (fun st p => dfs incoming fuel st p 0)
            (incoming nodeId) (minLayer - 1)
            { s with inProgress := s.inProgress ++ [nodeId],
                     visited := s.visited ++ [nodeId] } with
        | none =>
          rw [hdp] at h
          exact Option.noConfusion h
        | some pr =>
          simp only [hdp] at h
          have hrec : ∀ st p l st', LayerInv allIds st → p ∈ allIds →
              dfs incoming fuel st p 0 = some (l, st') →
              DfsPost allIds st l st' := by
            intro st p l st' hst hp hd
            exact (ih st p 0 (l, st') hd hst hp (le_refl 0)).1
          have hpreds := dfsPreds_spec allIds _ hrec (incoming nodeId)
            (minLayer - 1) _ pr hdp hinv1 (fun p hp => hinc nodeId p hp)
          obtain ⟨hinv2, hprog2, ⟨new2, hpre2⟩, hacc2, hvis2⟩ := hpreds
          obtain ⟨maxChild, s2⟩ := pr
          cases h
          have hnk2 : nodeId ∉ layerKeys s2 := by
            intro hk
            exact hinv2.keysProg nodeId hk
              (by rw [hprog2]; exact List.mem_append_right _ (by simp))
          have hval : (0 : Int) ≤ maxChild + 1 := by omega
          have hprogE : s2.inProgress.erase nodeId = s.inProgress := by
            rw [hprog2]
            simp only []
            rw [List.erase_append_right _ hip, List.erase_cons_head]
            simp
          have hkeys' : layerKeys { s2 with
              nodeLayer := s2.nodeLayer ++ [(nodeId, maxChild + 1)],
              inProgress := s2.inProgress.erase nodeId }
              = layerKeys s2 ++ [nodeId] := by
            simp [layerKeys]
          refine ⟨⟨⟨?_, ?_, ?_, ?_, ?_⟩, hprogE, ?_, hval, ?_⟩, Or.inl ?_⟩
          · rw [hkeys']
            simp only [List.nodup_append, List.nodup_cons, List.not_mem_nil,
              not_false_iff, List.nodup_nil, and_true, true_and]
            refine ⟨hinv2.keysNodup, ?_⟩
            intro k hk
            simp only [List.mem_singleton]
            intro hkn
            exact hnk2 (hkn ▸ hk)
          · rw [hkeys']
            intro k hk
            rcases List.mem_append.mp hk with hk | hk
            · exact hinv2.keysSub k hk
            · simp only [List.mem_singleton] at hk
              exact hk ▸ hmem
          · rw [hkeys']
            intro k hk
            simp only [hprogE]
            rcases List.mem_append.mp hk with hk | hk
            · intro hkS
              exact hinv2.keysProg k hk
                (by rw [hprog2]; exact List.mem_append_left _ hkS)
            · simp only [List.mem_singleton] at hk
              exact hk ▸ hip
          · intro p hp
            simp only [List.mem_append, List.mem_singleton] at hp
            rcases hp with hp | hp
            · exact hinv2.valsNonneg p hp
            · rw [hp]
              exact hval
          · intro v
            rw [hkeys', hprogE]
            have h2 := hinv2.visitedEq v
            rw [hprog2] at h2
            simp only [List.mem_append, List.mem_singleton] at h2 ⊢
            tauto
          · refine ⟨new2 ++ [(nodeId, maxChild + 1)], ?_⟩
            simp only []
            rw [hpre2]
            simp [List.append_assoc]
          · intro v hv
            exact hvis2 v (List.mem_append_left _ hv)
          · rw [hkeys']
            exact List.mem_append_right _ (by simp)

theorem dfs_total (incoming : String → List String) (allIds : List String)
    (hinc : ∀ id p, p ∈ incoming id → p ∈ allIds) :
    ∀ (fuel : Nat) (s : LayerState) (nodeId : String) (minLayer : Int),
      LayerInv allIds s → nodeId ∈ allIds → 0 ≤ minLayer →
      (allIds.toFinset \ s.inProgress.toFinset).card < fuel →
      (dfs incoming fuel s nodeId minLayer).isSome := by
  intro fuel
  induction fuel with
  | zero =>
    intro s nodeId minLayer _ _ _ hcard
    exact absurd hcard (Nat.not_lt_zero _)
  | succ fuel ih =>
    intro s nodeId minLayer hinv hmem hmin hcard
    rw [dfs]
    cases hl : lookupLayer s nodeId with
    | some l => simp
    | none =>
      by_cases hip : nodeId ∈ s.inProgress
      · simp [hip]
      · rw [if_neg hip]
        have hinv1 : LayerInv allIds
            { s with inProgress := s.inProgress ++ [nodeId],
                     visited := s.visited ++ [nodeId] } := by
          have hnk : nodeId ∉ layerKeys s := (lookupLayer_none_iff s nodeId).mp hl
          refine ⟨hinv.keysNodup, hinv.keysSub, ?_, hinv.valsNonneg, ?_⟩
          · intro k hk
            simp only [List.mem_append, List.mem_singleton]
            rintro (hkS | hkN)
            · exact hinv.keysProg k hk hkS
            · exact hnk (hkN ▸ hk)
          · intro v
            simp only [List.mem_append, List.mem_singleton, hinv.visitedEq v,
              layerKeys]
            tauto
        have hmeasure :
            (allIds.toFinset \
              (s.inProgress ++ [nodeId]).toFinset).card < fuel := by
          have hsub : allIds.toFinset \ (s.inProgress ++ [nodeId]).toFinset
              ⊆ allIds.toFinset \ s.inProgress.toFinset := by
            apply Finset.sdiff_subset_sdiff (le_refl _)
            intro x hx
            rw [List.toFinset_append]
            exact Finset.mem_union_left _ hx
          have hm : nodeId ∈ allIds.toFinset \ s.inProgress.toFinset := by
            rw [Finset.mem_sdiff, List.mem_toFinset, List.mem_toFinset]
            exact ⟨hmem, hip⟩
          have hnm : nodeId ∉ allIds.toFinset \
              (s.inProgress ++ [nodeId]).toFinset := by
            rw [Finset.mem_sdiff]
            rintro ⟨_, hno⟩
            exact hno (by rw [List.mem_toFinset]; simp)
          have hss : allIds.toFinset \ (s.inProgress ++ [nodeId]).toFinset
              ⊂ allIds.toFinset \ s.inProgress.toFinset :=
            (Finset.ssubset_iff_of_subset hsub).mpr ⟨nodeId, hm, hnm⟩
          have := Finset.card_lt_card hss
          omega
        -- totality of the predecessor loop
        have hpreds : (dfsPreds (fun st p => dfs incoming fuel st p 0)
            (incoming nodeId) (minLayer - 1)
            { s with inProgress := s.inProgress ++ [nodeId],
                     visited := s.visited ++ [nodeId] }).isSome := by
          have hloop : ∀ (ps : List String) (acc : Int) (st : LayerState),
              LayerInv allIds st → (∀ p ∈ ps, p ∈ allIds) →
              (allIds.toFinset \ st.inProgress.toFinset).card < fuel →
              (dfsPreds (fun st p => dfs incoming fuel st p 0)
                ps acc st).isSome := by
            intro ps
            induction ps with
            | nil => intro acc st _ _ _; simp [dfsPreds]
            | cons p ps ihp =>
              intro acc st hst hsub hc
              rw [dfsPreds]
              by_cases hip2 : p ∈ st.inProgress
              · rw [if_pos hip2]
                exact ihp acc st hst
                  (fun q hq => hsub q (List.mem_cons_of_mem p hq)) hc
              · rw [if_neg hip2]
                have hs := ih st p 0 hst (hsub p (List.mem_cons_self p ps))
                  (le_refl 0) hc
                cases hr : dfs incoming fuel st p 0 with
                | none => rw [hr] at hs; exact absurd hs (by simp)
                | some pr =>
                  have hspec := dfs_spec incoming allIds hinc fuel st p 0 pr
                    hr hst (hsub p (List.mem_cons_self p ps)) (le_refl 0)
                  obtain ⟨⟨hinvP, hprogP, _, _, _⟩, _⟩ := hspec
                  exact ihp (max acc pr.1) pr.2 hinvP
                    (fun q hq => hsub q (List.mem_cons_of_mem p hq))
                    (by rw [hprogP]; exact hc)
          exact hloop (incoming nodeId) (minLayer - 1) _ hinv1
            (fun p hp => hinc nodeId p hp) hmeasure
        cases hdp : dfsPreds (fun st p => dfs incoming fuel st p 0)
            (incoming nodeId) (minLayer - 1)
            { s with inProgress := s.inProgress ++ [nodeId],
                     visited := s.visited ++ [nodeId] } with
        | none => rw [hdp] at hpreds; exact absurd hpreds (by simp)
        | some pr =>
          obtain ⟨maxChild, s2⟩ := pr
          simp [hdp]

theorem layerKeys_mono_of_prefix (s s' : LayerState)
    (h : ∃ new, s'.nodeLayer = s.nodeLayer ++ new) :
    ∀ k ∈ layerKeys s, k ∈ layerKeys s' := by
  obtain ⟨new, hn⟩ := h
  intro k hk
  simp only [layerKeys, hn, List.map_append, List.mem_append]
  exact Or.inl hk

theorem foldDfs_starts (incoming : String → List String) (allIds : List String)
    (hinc : ∀ id p, p ∈ incoming id → p ∈ allIds) (fuel : Nat)
    (hfuel : allIds.toFinset.card < fuel) :
    ∀ (l : List ProcessNode) (s : LayerState),
      (∀ n ∈ l, n.id ∈ allIds) → LayerInv allIds s → s.inProgress = [] →
      ∃ s', l.foldl (fun acc n => acc.bind
          (fun s => (dfs incoming fuel s n.id 0).map (fun r => r.2)))
          (some s) = some s' ∧
        LayerInv allIds s' ∧ s'.inProgress = [] ∧
        (∃ new, s'.nodeLayer = s.nodeLayer ++ new) ∧
        (∀ v ∈ s.visited, v ∈ s'.visited) ∧
        (∀ n ∈ l, n.id ∈ layerKeys s') := by
  intro l
  induction l with
  | nil =>
    intro s _ hinv hprog
    exact ⟨s, rfl, hinv, hprog, ⟨[], by simp⟩, fun v hv => hv,
      fun n hn => absurd hn (List.not_mem_nil n)⟩
  | cons a l ih =>
    intro s hsub hinv hprog
    have hcard : (allIds.toFinset \ s.inProgress.toFinset).card < fuel := by
      rw [hprog]
      simpa using hfuel
    have hd := dfs_total incoming allIds hinc fuel s a.id 0 hinv
      (hsub a (List.mem_cons_self a l)) (le_refl 0) hcard
    cases hr : dfs incoming fuel s a.id 0 with
    | none => rw [hr] at hd; exact absurd hd (by simp)
    | some pr =>
      have hspec := dfs_spec incoming allIds hinc fuel s a.id 0 pr hr hinv
        (hsub a (List.mem_cons_self a l)) (le_refl 0)
      obtain ⟨⟨hinv1, hprog1, hpre1, _, hvis1⟩, hmem1⟩ := hspec
      have hmem1' : a.id ∈ layerKeys pr.2 := by
        rcases hmem1 with h | h
        · exact h
        · rw [hprog] at h
          exact absurd h (List.not_mem_nil _)
      obtain ⟨s', hfold, hinv', hprog', hpre', hvis', hall'⟩ :=
        ih pr.2 (fun n hn => hsub n (List.mem_cons_of_mem a hn)) hinv1
          (by rw [hprog1, hprog])
      refine ⟨s', ?_, hinv', hprog', ?_, ?_, ?_⟩
      · simp only [List.foldl_cons, Option.some_bind]
        rw [hr]
        simpa using hfold
      · obtain ⟨n1, h1⟩ := hpre1
        obtain ⟨n2, h2⟩ := hpre'
        exact ⟨n1 ++ n2, by rw [h2, h1, List.append_assoc]⟩
      · intro v hv
        exact hvis' v (hvis1 v hv)
      · intro n hn
        rcases List.mem_cons.mp hn with hn | hn
        · rw [hn]
          exact layerKeys_mono_of_prefix pr.2 s' hpre' a.id hmem1'
        · exact hall' n hn

theorem foldDfs_visit (incoming : String → List String) (allIds : List String)
    (hinc : ∀ id p, p ∈ incoming id → p ∈ allIds) (fuel : Nat)
    (hfuel : allIds.toFinset.card < fuel) :
    ∀ (l : List ProcessNode) (s : LayerState),
      (∀ n ∈ l, n.id ∈ allIds) → LayerInv allIds s → s.inProgress = [] →
      ∃ s', l.foldl (fun acc n => acc.bind (fun s =>
          if n.id ∈ s.visited then some s
          else (dfs incoming fuel s n.id 0).map (fun r => r.2)))
          (some s) = some s' ∧
        LayerInv allIds s' ∧ s'.inProgress = [] ∧
        (∃ new, s'.nodeLayer = s.nodeLayer ++ new) ∧
        (∀ n ∈ l, n.id ∈ layerKeys s') := by
  intro l
  induction l with
  | nil =>
    intro s _ hinv hprog
    exact ⟨s, rfl, hinv, hprog, ⟨[], by simp⟩,
      fun n hn => absurd hn (List.not_mem_nil n)⟩
  | cons a l ih =>
    intro s hsub hinv hprog
    by_cases hv : a.id ∈ s.visited
    · have hks : a.id ∈ layerKeys s := by
        rcases (hinv.visitedEq a.id).mp hv with h | h
        · exact h
        · rw [hprog] at h
          exact absurd h (List.not_mem_nil _)
      obtain ⟨s', hfold, hinv', hprog', hpre', hall'⟩ :=
        ih s (fun n hn => hsub n (List.mem_cons_of_mem a hn)) hinv hprog
      refine ⟨s', ?_, hinv', hprog', hpre', ?_⟩
      · simp only [List.foldl_cons, Option.some_bind, if_pos hv]
        exact hfold
      · intro n hn
        rcases List.mem_cons.mp hn with hn | hn
        · rw [hn]
          exact layerKeys_mono_of_prefix s s' hpre' a.id hks
        · exact hall' n hn
    · have hcard : (allIds.toFinset \ s.inProgress.toFinset).card < fuel := by
        rw [hprog]
        simpa using hfuel
      have hd := dfs_total incoming allIds hinc fuel s a.id 0 hinv
        (hsub a (List.mem_cons_self a l)) (le_refl 0) hcard
      cases hr : dfs incoming fuel s a.id 0 with
      | none => rw [hr] at hd; exact absurd hd (by simp)
      | some pr =>
        have hspec := dfs_spec incoming allIds hinc fuel s a.id 0 pr hr hinv
          (hsub a (List.mem_cons_self a l)) (le_refl 0)
        obtain ⟨⟨hinv1, hprog1, hpre1, _, hvis1⟩, hmem1⟩ := hspec
        have hmem1' : a.id ∈ layerKeys pr.2 := by
          rcases hmem1 with h | h
          · exact h
          · rw [hprog] at h
            exact absurd h (List.not_mem_nil _)
        obtain ⟨s', hfold, hinv', hprog', hpre', hall'⟩ :=
          ih pr.2 (fun n hn => hsub n (List.mem_cons_of_mem a hn)) hinv1
            (by rw [hprog1, hprog])
        refine ⟨s', ?_, hinv', hprog', ?_, ?_⟩
        · simp only [List.foldl_cons, Option.some_bind, if_neg hv]
          rw [hr]
          simpa using hfold
        · obtain ⟨n1, h1⟩ := hpre1
          obtain ⟨n2, h2⟩ := hpre'
          exact ⟨n1 ++ n2, by rw [h2, h1, List.append_assoc]⟩
        · intro n hn
          rcases List.mem_cons.mp hn with hn | hn
          · rw [hn]
            exact layerKeys_mono_of_prefix pr.2 s' hpre' a.id hmem1'
          · exact hall' n hn

/-- assignLayersState succeeds on every input and its final layer map
assigns a layer to exactly the declared node ids, without duplicates and
with nonnegative values. -/
theorem assignLayersState_spec (nodes : List ProcessNode)
    (incoming : String → List String)
    (hinc : ∀ id p, p ∈ incoming id → p ∈ nodes.map (fun n => n.id)) :
    ∃ s, assignLayersState nodes incoming = some s ∧
      LayerInv (nodes.map (fun n => n.id)) s ∧
      (∀ id ∈ nodes.map (fun n => n.id), id ∈ layerKeys s) := by
  have hfuel : (nodes.map (fun n => n.id)).toFinset.card < nodes.length + 1 := by
    have h1 := List.toFinset_card_le (nodes.map (fun n => n.id))
    simp only [List.length_map] at h1
    omega
  have hinv0 : LayerInv (nodes.map (fun n => n.id))
      { nodeLayer := [], visited := [], inProgress := [] } := by
    refine ⟨List.nodup_nil, ?_, ?_, ?_, ?_⟩ <;> simp [layerKeys]
  simp only [assignLayersState]
  obtain ⟨s1, hfold1, hinv1, hprog1, _, _, _⟩ :=
    foldDfs_starts incoming (nodes.map (fun n => n.id)) hinc
      (nodes.length + 1) hfuel
      (if ((nodes.filter (fun n => n.type == .start ||
          (incoming n.id).isEmpty)).isEmpty) then nodes.take 1
        else nodes.filter (fun n => n.type == .start || (incoming n.id).isEmpty))
      { nodeLayer := [], visited := [], inProgress := [] }
      (by
        intro n hn
        apply List.mem_map_of_mem
        by_cases he : (nodes.filter (fun n => n.type == .start ||
            (incoming n.id).isEmpty)).isEmpty
        · rw [if_pos he] at hn
          exact List.mem_of_mem_take hn
        · rw [if_neg he] at hn
          exact List.mem_of_mem_filter hn)
      hinv0 rfl
  obtain ⟨s2, hfold2, hinv2, hprog2, _, hall2⟩ :=
    foldDfs_visit incoming (nodes.map (fun n => n.id)) hinc
      (nodes.length + 1) hfuel nodes s1
      (fun n hn => List.mem_map_of_mem _ hn) hinv1 hprog1
  refine ⟨s2, ?_, hinv2, ?_⟩
  · rw [hfold1]
    exact hfold2
  · intro id hid
    obtain ⟨n, hn, hnid⟩ := List.mem_map.mp hid
    rw [← hnid]
    exact hall2 n hn

theorem nodeLayer_val_unique (nl : List (String × Int))
    (h : (nl.map Prod.fst).Nodup) (k : String) (v1 v2 : Int)
    (h1 : (k, v1) ∈ nl) (h2 : (k, v2) ∈ nl) : v1 = v2 := by
  induction nl with
  | nil => exact absurd h1 (List.not_mem_nil _)
  | cons a t ih =>
    simp only [List.map_cons, List.nodup_cons] at h
    rcases List.mem_cons.mp h1 with h1 | h1 <;>
      rcases List.mem_cons.mp h2 with h2 | h2
    · rw [← h1] at h2
      exact (((Prod.mk.injEq _ _ _ _).mp h2).2).symm
    · exact absurd (List.mem_map.mpr ⟨(k, v2), h2, by rw [← h1]⟩) h.1
    · exact absurd (List.mem_map.mpr ⟨(k, v1), h1, by rw [← h2]⟩) h.1
    · exact ih h.2 h1 h2

theorem foldl_max_init_le (l : List Int) : ∀ a : Int, a ≤ l.foldl max a := by
  induction l with
  | nil => intro a; exact le_refl a
  | cons x t ih =>
    intro a
    exact le_trans (le_max_left a x) (ih (max a x))

theorem le_foldl_max (l : List Int) : ∀ (a : Int), ∀ x ∈ l, x ≤ l.foldl max a := by
  induction l with
  | nil => intro a x hx; exact absurd hx (List.not_mem_nil x)
  | cons y t ih =>
    intro a x hx
    rcases List.mem_cons.mp hx with hx | hx
    · rw [hx]
      exact le_trans (le_max_right a y) (foldl_max_init_le t (max a y))
    · exact ih (max a y) x hx

theorem flatten_filter_nonempty (ls : List (List α)) :
    (ls.filter (fun l => !l.isEmpty)).flatten = ls.flatten := by
  induction ls with
  | nil => rfl
  | cons a t ih =>
    by_cases h : a.isEmpty
    · have ha : a = [] := List.isEmpty_iff.mp h
      simp [List.filter_cons, h, ih, ha]
    · simp [List.filter_cons, h, ih]

theorem groupLayers_mem (nl : List (String × Int))
    (hpos : ∀ p ∈ nl, 0 ≤ p.2) :
    ∀ k, k ∈ (groupLayers nl).flatten ↔ k ∈ nl.map Prod.fst := by
  intro k
  simp only [groupLayers]
  rw [flatten_filter_nonempty]
  constructor
  · intro hk
    obtain ⟨b, hb, hkb⟩ := List.mem_flatten.mp hk
    obtain ⟨i, _, hib⟩ := List.mem_map.mp hb
    rw [← hib] at hkb
    obtain ⟨p, hpf, hpk⟩ := List.mem_map.mp hkb
    exact List.mem_map.mpr ⟨p, (List.mem_filter.mp hpf).1, hpk⟩
  · intro hk
    obtain ⟨p, hp, hpk⟩ := List.mem_map.mp hk
    have hv0 : (0 : Int) ≤ p.2 := hpos p hp
    have hvmax : p.2 ≤ (nl.map Prod.snd).foldl max 0 :=
      le_foldl_max _ 0 p.2 (List.mem_map.mpr ⟨p, hp, rfl⟩)
    have hmax0 : (0 : Int) ≤ (nl.map Prod.snd).foldl max 0 :=
      foldl_max_init_le _ 0
    refine List.mem_flatten.mpr
      ⟨_, List.mem_map.mpr ⟨p.2.toNat, List.mem_range.mpr ?_, rfl⟩, ?_⟩
    · show p.2.toNat < ((nl.map Prod.snd).foldl max 0).toNat + 1
      omega
    · refine List.mem_map.mpr ⟨p, List.mem_filter.mpr ⟨hp, ?_⟩, hpk⟩
      simp [Int.toNat_of_nonneg hv0]

theorem groupLayers_nodup (nl : List (String × Int))
    (hnodup : (nl.map Prod.fst).Nodup) :
    (groupLayers nl).flatten.Nodup := by
  simp only [groupLayers]
  rw [flatten_filter_nonempty]
  rw [List.nodup_flatten]
  constructor
  · intro l hl
    obtain ⟨i, _, hi⟩ := List.mem_map.mp hl
    rw [← hi]
    have hsub : ((nl.filter (fun q => q.2 == (i : Int))).map Prod.fst).Sublist
        (nl.map Prod.fst) :=
      List.Sublist.map Prod.fst (List.filter_sublist nl)
    exact hnodup.sublist hsub
  · rw [List.pairwise_map]
    have hrange := List.pairwise_lt_range
      (((nl.map Prod.snd).foldl max 0).toNat + 1)
    refine hrange.imp (fun {i j} hij => ?_)
    intro k hki hkj
    obtain ⟨p, hpf, hpk⟩ := List.mem_map.mp hki
    obtain ⟨q, hqf, hqk⟩ := List.mem_map.mp hkj
    have hpm := List.mem_filter.mp hpf
    have hqm := List.mem_filter.mp hqf
    have hpv : p.2 = (i : Int) := by simpa [beq_iff_eq] using hpm.2
    have hqv : q.2 = (j : Int) := by simpa [beq_iff_eq] using hqm.2
    have hpq : p = (k, (i : Int)) := by
      obtain ⟨p1, p2⟩ := p
      simp only at hpk hpv
      simp [hpk, hpv]
    have hqq : q = (k, (j : Int)) := by
      obtain ⟨q1, q2⟩ := q
      simp only at hqk hqv
      simp [hqk, hqv]
    have := nodeLayer_val_unique nl hnodup k (i : Int) (j : Int)
      (hpq ▸ hpm.1) (hqq ▸ hqm.1)
    omega

theorem assocGet_incoming_sub (nodes : List ProcessNode)
    (ts : List ProcessTransition) :
    ∀ id p, p ∈ assocGet (incomingEntries nodes ts) id →
      p ∈ nodes.map (fun n => n.id) := by
  intro id p hp
  unfold assocGet at hp
  cases hf : (incomingEntries nodes ts).find? (fun q => q.1 == id) with
  | none => rw [hf] at hp; exact absurd hp (List.not_mem_nil p)
  | some entry =>
    rw [hf] at hp
    have hmem := List.mem_of_find?_eq_some hf
    unfold incomingEntries at hmem
    obtain ⟨eid, _, hentry⟩ := List.mem_map.mp hmem
    rw [← hentry] at hp
    simp only at hp
    obtain ⟨t, htf, htp⟩ := List.mem_map.mp hp
    have hval := List.mem_filter.mp htf
    have hvalid := List.mem_filter.mp hval.1
    have hfromIn : nodes.any (fun n => n.id == t.«from») = true := by
      have h2 := hvalid.2
      simp only [Bool.and_eq_true] at h2
      exact h2.1
    obtain ⟨n, hn, hnid⟩ := List.any_eq_true.mp hfromIn
    rw [← htp]
    exact List.mem_map.mpr ⟨n, hn, by simpa [beq_iff_eq] using hnid⟩

/-- The two-node cycle of the spec scenario. -/
def cycleNodes : List ProcessNode :=
  [{ id := "A", type := .task, name := "A", position := { x := 0, y := 0 } },
   { id := "B", type := .task, name := "B", position := { x := 0, y := 0 } }]

/-- The two transitions closing the cycle A→B→A. -/
def cycleTransitions : List ProcessTransition :=
  [{ id := "t1", «from» := "A", «to» := "B" },
   { id := "t2", «from» := "B", «to» := "A" }]

/-- C1: for every input graph — cyclic ones included — the layering phase
completes with the fuel assignLayers supplies, so there is no infinite
recursion, and the returned layering lists every node id exactly once; in
particular on the two-node cycle A→B→A both nodes appear in the result. -/
theorem C1_assignLayers_total_every_node (nodes : List ProcessNode)
    (ts : List ProcessTransition) :
    (∃ layers, assignLayers nodes (assocGet (incomingEntries nodes ts))
        = some layers ∧
      layers.flatten.Nodup ∧
      (∀ id, id ∈ layers.flatten ↔ id ∈ nodes.map (fun n => n.id)) ∧
      (∀ id ∈ nodes.map (fun n => n.id), layers.flatten.count id = 1)) ∧
    assignLayers cycleNodes
        (assocGet (incomingEntries cycleNodes cycleTransitions))
      = some [["B"], ["A"]] := by
  constructor
  · obtain ⟨s, hs, hinv, hall⟩ := assignLayersState_spec nodes
      (assocGet (incomingEntries nodes ts)) (assocGet_incoming_sub nodes ts)
    have hnodup := groupLayers_nodup s.nodeLayer hinv.keysNodup
    have hmemiff : ∀ id, id ∈ (groupLayers s.nodeLayer).flatten ↔
        id ∈ nodes.map (fun n => n.id) := by
      intro id
      rw [groupLayers_mem s.nodeLayer hinv.valsNonneg id]
      exact ⟨fun h => hinv.keysSub id h, fun h => hall id h⟩
    refine ⟨groupLayers s.nodeLayer, ?_, hnodup, hmemiff, ?_⟩
    · simp [assignLayers, hs]
    · intro id hid
      exact List.count_eq_one_of_mem hnodup ((hmemiff id).mpr hid)
  · decide

theorem dedupFirst_eq_self (qs : List String) (h : qs.Nodup) :
    dedupFirst qs = qs := by
  induction qs with
  | nil => rfl
  | cons a t ih =>
    simp only [List.nodup_cons] at h
    rw [dedupFirst, ih h.2]
    congr 1
    refine List.filter_eq_self.mpr ?_
    intro x hx
    simp only [Bool.not_eq_eq_eq_not, Bool.not_true, decide_eq_false_iff_not]
    exact fun hxa => h.1 (hxa ▸ hx)

theorem validTransitions_chain (nodes : List ProcessNode)
    (ts : List ProcessTransition)
    (hts : ts.map (fun t => (t.«from», t.«to»))
      = (nodes.map (fun n => n.id)).zip ((nodes.map (fun n => n.id)).drop 1)) :
    validTransitions nodes ts = ts := by
  refine List.filter_eq_self.mpr ?_
  intro t ht
  have hpair : (t.«from», t.«to») ∈
      (nodes.map (fun n => n.id)).zip ((nodes.map (fun n => n.id)).drop 1) := by
    rw [← hts]
    exact List.mem_map.mpr ⟨t, ht, rfl⟩
  have hzip := List.of_mem_zip hpair
  have hfrom : t.«from» ∈ nodes.map (fun n => n.id) := hzip.1
  have hto : t.«to» ∈ nodes.map (fun n => n.id) := by
    have := hzip.2
    exact List.mem_of_mem_drop this
  simp only [Bool.and_eq_true, List.any_eq_true]
  obtain ⟨n1, hn1, hid1⟩ := List.mem_map.mp hfrom
  obtain ⟨n2, hn2, hid2⟩ := List.mem_map.mp hto
  exact ⟨⟨n1, hn1, by simp [hid1]⟩, ⟨n2, hn2, by simp [hid2]⟩⟩

theorem find?_map_key (g : String → List String) (qs : List String)
    (x : String) (hx : x ∈ qs) :
    (qs.map (fun id => (id, g id))).find? (fun p => p.1 == x)
      = some (x, g x) := by
  induction qs with
  | nil => exact absurd hx (List.not_mem_nil x)
  | cons a t ih =>
    rcases List.mem_cons.mp hx with hx | hx
    · subst hx
      simp [List.find?_cons]
    · by_cases hax : a = x
      · subst hax
        simp [List.find?_cons]
      · have hfalse : (a == x) = false := by simp [hax]
        simp only [List.map_cons, List.find?_cons, hfalse]
        exact ih hx

theorem chain_filter : ∀ (qs : List String), qs.Nodup →
    ∀ (ts : List ProcessTransition),
      ts.map (fun t => (t.«from», t.«to»)) = qs.zip (qs.drop 1) →
      ∀ i, i < qs.length →
        (ts.filter (fun t => t.«to» == qs.getD i "")).map (fun t => t.«from»)
          = if i = 0 then [] else [qs.getD (i - 1) ""] := by
  intro qs
  induction qs with
  | nil =>
    intro _ ts _ i hi
    exact absurd hi (by simp)
  | cons q1 rest ih =>
    intro hnodup ts hts i hi
    cases rest with
    | nil =>
      have htsnil : ts = [] := by
        have h0 : ts.map (fun t => (t.«from», t.«to»)) = [] := by simpa using hts
        exact List.map_eq_nil_iff.mp h0
      subst htsnil
      have hi0 : i = 0 := by simpa using hi
      subst hi0
      simp
    | cons q2 rest2 =>
      cases ts with
      | nil => simp at hts
      | cons t ts2 =>
        simp only [List.map_cons, List.drop_succ_cons, List.drop_zero,
          List.zip_cons_cons] at hts
        injection hts with hpair hrest
        have hfrom : t.«from» = q1 := congrArg Prod.fst hpair
        have hto : t.«to» = q2 := congrArg Prod.snd hpair
        have hq1 : q1 ∉ q2 :: rest2 := (List.nodup_cons.mp hnodup).1
        have hnodup2 : (q2 :: rest2).Nodup := (List.nodup_cons.mp hnodup).2
        have hq2 : q2 ∉ rest2 := (List.nodup_cons.mp hnodup2).1
        have htos : ∀ tr ∈ ts2, tr.«to» ∈ rest2 := by
          intro tr htr
          have hpm : (tr.«from», tr.«to») ∈ (q2 :: rest2).zip rest2 := by
            rw [← hrest]
            exact List.mem_map.mpr ⟨tr, htr, rfl⟩
          exact (List.of_mem_zip hpm).2
        cases i with
        | zero =>
          simp only [List.getD_cons_zero, if_pos rfl]
          have hhead : (t.«to» == q1) = false := by
            simp only [beq_eq_false_iff_ne, hto]
            exact fun h => hq1 (h ▸ List.mem_cons_self q2 rest2)
          rw [List.filter_cons, hhead]
          simp only [Bool.false_eq_true, if_false]
          have hnil : ts2.filter (fun t' => t'.«to» == q1) = [] := by
            refine List.filter_eq_nil_iff.mpr ?_
            intro t' ht'
            simp only [beq_iff_eq]
            exact fun h => hq1 (h ▸ List.mem_cons_of_mem q2 (htos t' ht'))
          rw [hnil]
          simp
        | succ j =>
          simp only [List.getD_cons_succ]
          cases j with
          | zero =>
            simp only [List.getD_cons_zero]
            have hhead : (t.«to» == q2) = true := by simp [hto]
            rw [List.filter_cons, hhead]
            simp only [if_true]
            have hnil : ts2.filter (fun t' => t'.«to» == q2) = [] := by
              refine List.filter_eq_nil_iff.mpr ?_
              intro t' ht'
              simp only [beq_iff_eq]
              exact fun h => hq2 (h ▸ htos t' ht')
            rw [hnil]
            simp [hfrom]
          | succ m =>
            have hm : m + 1 < (q2 :: rest2).length := by
              simp only [List.length_cons] at hi ⊢
              omega
            have hmr : m < rest2.length := by
              simp only [List.length_cons] at hm
              omega
            have hhead : (t.«to» == (q2 :: rest2).getD (m + 1) "") = false := by
              simp only [List.getD_cons_succ, beq_eq_false_iff_ne, hto]
              intro h
              apply hq2
              rw [h]
              have := List.getD_eq_getElem rest2 "" hmr
              rw [this]
              exact List.getElem_mem hmr
            simp only [List.getD_cons_succ] at hhead ⊢
            rw [List.filter_cons, hhead]
            simp only [Bool.false_eq_true, if_false]
            have hih := ih hnodup2 ts2 (by simpa using hrest) (m + 1) hm
            simp only [List.getD_cons_succ] at hih
            rw [hih]
            simp

theorem chain_incoming (nodes : List ProcessNode) (ts : List ProcessTransition)
    (hnodup : (nodes.map (fun n => n.id)).Nodup)
    (hts : ts.map (fun t => (t.«from», t.«to»))
      = (nodes.map (fun n => n.id)).zip ((nodes.map (fun n => n.id)).drop 1)) :
    ∀ i, i < nodes.length →
      assocGet (incomingEntries nodes ts)
          ((nodes.map (fun n => n.id)).getD i "")
        = if i = 0 then [] else [(nodes.map (fun n => n.id)).getD (i - 1) ""] := by
  intro i hi
  have hlen : i < (nodes.map (fun n => n.id)).length := by simpa using hi
  have hxmem : (nodes.map (fun n => n.id)).getD i "" ∈ nodes.map (fun n => n.id) := by
    rw [List.getD_eq_getElem _ _ hlen]
    exact List.getElem_mem hlen
  unfold assocGet incomingEntries
  rw [dedupFirst_eq_self _ hnodup, validTransitions_chain nodes ts hts,
    find?_map_key _ _ _ hxmem]
  exact chain_filter (nodes.map (fun n => n.id)) hnodup ts hts i hlen

/-- The nodeLayer map built while layering the first `m` nodes of a
chain: node `j` sits at layer `j`, entries in discovery order. -/
def prefixMap (qs : List String) (m : Nat) : List (String × Int) :=
  (List.range m).map (fun (j : Nat) => (qs.getD j "", (j : Int)))

theorem prefixMap_succ (qs : List String) (m : Nat) :
    prefixMap qs (m + 1) = prefixMap qs m ++ [(qs.getD m "", (m : Int))] := by
  simp [prefixMap, List.range_succ]

theorem nodup_getD_inj (qs : List String) (h : qs.Nodup) (i j : Nat)
    (hi : i < qs.length) (hj : j < qs.length)
    (he : qs.getD i "" = qs.getD j "") : i = j := by
  rw [List.getD_eq_getElem _ _ hi, List.getD_eq_getElem _ _ hj] at he
  exact (List.Nodup.getElem_inj_iff h).mp he

theorem prefixAux_find? (qs : List String) (hq : qs.Nodup) :
    ∀ (m b i : Nat), b + m ≤ qs.length → b ≤ i → i < b + m →
      ((List.range m).map (fun (j : Nat) =>
          (qs.getD (b + j) "", ((b + j : Nat) : Int)))).find?
          (fun p => p.1 == qs.getD i "")
        = some (qs.getD i "", (i : Int)) := by
  intro m
  induction m with
  | zero =>
    intro b i _ hbi hib
    omega
  | succ m ih =>
    intro b i hbm hbi hib
    rw [List.range_succ_eq_map]
    simp only [List.map_cons, List.map_map, List.find?_cons]
    by_cases hieq : i = b
    · subst hieq
      simp
    · have hbl : b < qs.length := by omega
      have hil : i < qs.length := by omega
      have hne : ((qs.getD (b + 0) "", ((b + 0 : Nat) : Int)).1
          == qs.getD i "") = false := by
        simp only [Nat.add_zero, beq_eq_false_iff_ne]
        intro h
        exact hieq (nodup_getD_inj qs hq i b hil hbl h.symm)
      rw [hne]
      have hfun : ((fun (j : Nat) => (qs.getD (b + j) "", ((b + j : Nat) : Int)))
          ∘ Nat.succ)
          = (fun (j : Nat) =>
              (qs.getD ((b + 1) + j) "", (((b + 1) + j : Nat) : Int))) := by
        funext j
        show (qs.getD (b + (j + 1)) "", ((b + (j + 1) : Nat) : Int)) = _
        rw [show b + (j + 1) = (b + 1) + j from by omega]
      rw [hfun]
      exact ih (b + 1) i (by omega) (by omega) (by omega)

theorem prefixMap_find?_lt (qs : List String) (hq : qs.Nodup) (m i : Nat)
    (hm : m ≤ qs.length) (hi : i < m) :
    (prefixMap qs m).find? (fun p => p.1 == qs.getD i "")
      = some (qs.getD i "", (i : Int)) := by
  have h := prefixAux_find? qs hq m 0 i (by omega) (by omega) (by omega)
  simpa [prefixMap] using h

theorem lookupLayer_prefix_lt (qs : List String) (hq : qs.Nodup)
    (m i : Nat) (vis prog : List String)
    (hm : m ≤ qs.length) (hi : i < m) :
    lookupLayer ⟨prefixMap qs m, vis, prog⟩ (qs.getD i "")
      = some ((i : Nat) : Int) := by
  unfold lookupLayer
  rw [show LayerState.nodeLayer ⟨prefixMap qs m, vis, prog⟩ = prefixMap qs m
    from rfl]
  rw [prefixMap_find?_lt qs hq m i hm hi]
  rfl

theorem lookupLayer_prefix_ge (qs : List String) (hq : qs.Nodup)
    (m i : Nat) (vis prog : List String)
    (hm : m ≤ i) (hi : i < qs.length) :
    lookupLayer ⟨prefixMap qs m, vis, prog⟩ (qs.getD i "") = none := by
  unfold lookupLayer
  rw [Option.map_eq_none']
  rw [List.find?_eq_none]
  intro p hp
  rw [show LayerState.nodeLayer ⟨prefixMap qs m, vis, prog⟩ = prefixMap qs m
    from rfl] at hp
  simp only [prefixMap, List.mem_map, List.mem_range] at hp
  obtain ⟨j, hj, rfl⟩ := hp
  simp only [beq_iff_eq]
  intro h
  have := nodup_getD_inj qs hq j i (by omega) hi h
  omega

theorem chain_dfs_hit (qs : List String) (hq : qs.Nodup)
    (inc : String → List String) (i : Nat) (hi : i < qs.length)
    (f : Nat) (hf : 1 ≤ f) (vis P : List String) (m : Nat)
    (hm : m ≤ qs.length) (him : i < m) :
    dfs inc f ⟨prefixMap qs m, vis, P⟩ (qs.getD i "") 0
      = some (((i : Nat) : Int), ⟨prefixMap qs m, vis, P⟩) := by
  obtain ⟨g, rfl⟩ : ∃ g, f = g + 1 := ⟨f - 1, by omega⟩
  rw [dfs]
  rw [lookupLayer_prefix_lt qs hq m i vis P hm him]

theorem chain_dfs (qs : List String) (hq : qs.Nodup)
    (inc : String → List String)
    (hinc : ∀ j, j < qs.length → inc (qs.getD j "")
      = if j = 0 then [] else [qs.getD (j - 1) ""]) :
    ∀ (i : Nat), i < qs.length → ∀ (f : Nat), i + 1 ≤ f →
      ∀ (vis P : List String) (m : Nat), m ≤ qs.length →
      (∀ j, j ≤ i → qs.getD j "" ∉ P) →
      ∃ vis',
        dfs inc f ⟨prefixMap qs m, vis, P⟩ (qs.getD i "") 0
          = some (((i : Nat) : Int), ⟨prefixMap qs (max m (i + 1)), vis', P⟩) ∧
        ∀ v, v ∈ vis' ↔ v ∈ vis ∨ ∃ j, m ≤ j ∧ j ≤ i ∧ v = qs.getD j "" := by
  intro i
  induction i with
  | zero =>
    intro hi f hf vis P m hm hP
    by_cases him : 0 < m
    · refine ⟨vis, ?_, ?_⟩
      · rw [Nat.max_eq_left (by omega)]
        exact chain_dfs_hit qs hq inc 0 hi f (by omega) vis P m hm him
      · intro v
        constructor
        · exact Or.inl
        · rintro (hv | ⟨j, hj1, hj2, rfl⟩)
          · exact hv
          · omega
    · have hm0 : m = 0 := by omega
      subst hm0
      obtain ⟨g, rfl⟩ : ∃ g, f = g + 1 := ⟨f - 1, by omega⟩
      refine ⟨vis ++ [qs.getD 0 ""], ?_, ?_⟩
      · have hlook := lookupLayer_prefix_ge qs hq 0 0 vis P (Nat.le_refl 0) hi
        simp only [dfs, hlook]
        rw [if_neg (hP 0 (Nat.le_refl 0))]
        rw [hinc 0 hi]
        rw [if_pos rfl]
        rw [dfsPreds]
        have herase : (P ++ [qs.getD 0 ""]).erase (qs.getD 0 "") = P := by
          rw [List.erase_append_right _ (hP 0 (Nat.le_refl 0)),
            List.erase_cons_head, List.append_nil]
        simp only [Option.some.injEq, Prod.mk.injEq, LayerState.mk.injEq,
          herase]
        refine ⟨by norm_num, ?_, trivial, trivial⟩
        rw [show max 0 (0 + 1) = 0 + 1 from by omega, prefixMap_succ]
        norm_num [prefixMap]
      · intro v
        simp only [List.mem_append, List.mem_singleton]
        constructor
        · rintro (hv | rfl)
          · exact Or.inl hv
          · exact Or.inr ⟨0, Nat.le_refl 0, Nat.le_refl 0, rfl⟩
        · rintro (hv | ⟨j, hj1, hj2, rfl⟩)
          · exact Or.inl hv
          · have hj0 : j = 0 := by omega
            subst hj0
            exact Or.inr rfl
  | succ i ih =>
    intro hi f hf vis P m hm hP
    by_cases him : i + 1 < m
    · refine ⟨vis, ?_, ?_⟩
      · rw [Nat.max_eq_left (by omega)]
        exact chain_dfs_hit qs hq inc (i + 1) hi f (by omega) vis P m hm him
      · intro v
        constructor
        · exact Or.inl
        · rintro (hv | ⟨j, hj1, hj2, rfl⟩)
          · exact hv
          · omega
    · have hmle : m ≤ i + 1 := by omega
      obtain ⟨g, rfl⟩ : ∃ g, f = g + 1 := ⟨f - 1, by omega⟩
      have hile : i < qs.length := by omega
      have hP1 : ∀ j, j ≤ i →
          qs.getD j "" ∉ P ++ [qs.getD (i + 1) ""] := by
        intro j hj
        simp only [List.mem_append, List.mem_singleton]
        rintro (hjP | hjq)
        · exact hP j (by omega) hjP
        · have := nodup_getD_inj qs hq j (i + 1) (by omega) hi hjq
          omega
      obtain ⟨vis1, hdfs1, hvis1⟩ := ih hile g (by omega)
        (vis ++ [qs.getD (i + 1) ""]) (P ++ [qs.getD (i + 1) ""]) m hm hP1
      refine ⟨vis1, ?_, ?_⟩
      · have hlook := lookupLayer_prefix_ge qs hq m (i + 1) vis P hmle hi
        simp only [dfs, hlook]
        rw [if_neg (hP (i + 1) (Nat.le_refl _))]
        rw [hinc (i + 1) hi]
        rw [if_neg (Nat.succ_ne_zero i)]
        simp only [Nat.add_sub_cancel]
        rw [dfsPreds]
        rw [if_neg (hP1 i (Nat.le_refl i))]
        simp only [hdfs1]
        rw [dfsPreds]
        have herase : ((P ++ [qs.getD (i + 1) ""]).erase (qs.getD (i + 1) ""))
            = P := by
          rw [List.erase_append_right _ (hP (i + 1) (Nat.le_refl _)),
            List.erase_cons_head, List.append_nil]
        simp only [Option.some.injEq, Prod.mk.injEq, LayerState.mk.injEq,
          herase]
        have hmax1 : max (0 - 1) ((i : Nat) : Int) = ((i : Nat) : Int) := by
          rw [max_eq_right]
          omega
        refine ⟨?_, ?_, trivial, trivial⟩
        · rw [hmax1]
          push_cast
          ring
        · rw [hmax1]
          rw [show max m (i + 1) = i + 1 from by omega,
            show max m (i + 1 + 1) = i + 1 + 1 from by omega]
          rw [show prefixMap qs (i + 1 + 1)
              = prefixMap qs (i + 1)
                ++ [(qs.getD (i + 1) "", ((i + 1 : Nat) : Int))]
            from prefixMap_succ qs (i + 1)]
          push_cast
          rfl
      · intro v
        rw [hvis1 v]
        simp only [List.mem_append, List.mem_singleton]
        constructor
        · rintro ((hv | rfl) | ⟨j, hj1, hj2, rfl⟩)
          · exact Or.inl hv
          · exact Or.inr ⟨i + 1, hmle, Nat.le_refl _, rfl⟩
          · exact Or.inr ⟨j, hj1, by omega, rfl⟩
        · rintro (hv | ⟨j, hj1, hj2, rfl⟩)
          · exact Or.inl (Or.inl hv)
          · by_cases hji : j = i + 1
            · subst hji
              exact Or.inl (Or.inr rfl)
            · exact Or.inr ⟨j, hj1, by omega, rfl⟩

theorem chain_fold_starts (qs : List String) (hq : qs.Nodup)
    (inc : String → List String)
    (hinc : ∀ j, j < qs.length → inc (qs.getD j "")
      = if j = 0 then [] else [qs.getD (j - 1) ""])
    (f : Nat) (hf : qs.length ≤ f) :
    ∀ (l : List ProcessNode) (m : Nat) (vis : List String),
      (∀ n ∈ l, ∃ i, i < qs.length ∧ n.id = qs.getD i "") →
      m ≤ qs.length →
      (∀ v, v ∈ vis ↔ ∃ j, j < m ∧ v = qs.getD j "") →
      ∃ m' vis',
        l.foldl (fun acc n => acc.bind
            (fun s => (dfs inc f s n.id 0).map (fun r => r.2)))
          (some ⟨prefixMap qs m, vis, []⟩)
          = some ⟨prefixMap qs m', vis', []⟩ ∧
        m ≤ m' ∧ m' ≤ qs.length ∧
        (∀ v, v ∈ vis' ↔ ∃ j, j < m' ∧ v = qs.getD j "") := by
  intro l
  induction l with
  | nil =>
    intro m vis _ hm hvis
    exact ⟨m, vis, rfl, Nat.le_refl m, hm, hvis⟩
  | cons n l ihl =>
    intro m vis hids hm hvis
    obtain ⟨i, hi, hnid⟩ := hids n (List.mem_cons_self n l)
    obtain ⟨vis1, hdfs, hvis1⟩ := chain_dfs qs hq inc hinc i hi f (by omega)
      vis [] m hm (fun j _ => List.not_mem_nil _)
    have hvis1' : ∀ v, v ∈ vis1 ↔
        ∃ j, j < max m (i + 1) ∧ v = qs.getD j "" := by
      intro v
      rw [hvis1 v]
      constructor
      · rintro (hv | ⟨j, hj1, hj2, rfl⟩)
        · obtain ⟨j, hj, rfl⟩ := (hvis v).mp hv
          exact ⟨j, by omega, rfl⟩
        · exact ⟨j, by omega, rfl⟩
      · rintro ⟨j, hj, rfl⟩
        by_cases hjm : j < m
        · exact Or.inl ((hvis _).mpr ⟨j, hjm, rfl⟩)
        · exact Or.inr ⟨j, by omega, by omega, rfl⟩
    rw [List.foldl_cons]
    simp only [Option.some_bind]
    rw [hnid, hdfs]
    simp only [Option.map_some']
    obtain ⟨m', vis', hfold, hle, hub, hv'⟩ := ihl (max m (i + 1)) vis1
      (fun n' hn' => hids n' (List.mem_cons_of_mem n hn'))
      (by omega) hvis1'
    exact ⟨m', vis', hfold, by omega, hub, hv'⟩

theorem chain_fold_visit (qs : List String) (hq : qs.Nodup)
    (inc : String → List String)
    (hinc : ∀ j, j < qs.length → inc (qs.getD j "")
      = if j = 0 then [] else [qs.getD (j - 1) ""])
    (f : Nat) (hf : qs.length ≤ f) :
    ∀ (l : List ProcessNode) (m : Nat) (vis : List String),
      (∀ n ∈ l, ∃ i, i < qs.length ∧ n.id = qs.getD i "") →
      m ≤ qs.length →
      (∀ v, v ∈ vis ↔ ∃ j, j < m ∧ v = qs.getD j "") →
      ∃ m' vis',
        l.foldl (fun acc n => acc.bind (fun s =>
            if n.id ∈ s.visited then some s
            else (dfs inc f s n.id 0).map (fun r => r.2)))
          (some ⟨prefixMap qs m, vis, []⟩)
          = some ⟨prefixMap qs m', vis', []⟩ ∧
        m ≤ m' ∧ m' ≤ qs.length ∧
        (∀ v, v ∈ vis' ↔ ∃ j, j < m' ∧ v = qs.getD j "") ∧
        (∀ n ∈ l, ∀ i, i < qs.length → n.id = qs.getD i "" → i < m') := by
  intro l
  induction l with
  | nil =>
    intro m vis _ hm hvis
    exact ⟨m, vis, rfl, Nat.le_refl m, hm, hvis,
      fun n hn => absurd hn (List.not_mem_nil n)⟩
  | cons n l ihl =>
    intro m vis hids hm hvis
    obtain ⟨i, hi, hnid⟩ := hids n (List.mem_cons_self n l)
    rw [List.foldl_cons]
    simp only [Option.some_bind]
    by_cases hvd : n.id ∈ vis
    · rw [if_pos hvd]
      have him : i < m := by
        obtain ⟨j, hj, hji⟩ := (hvis n.id).mp hvd
        have := nodup_getD_inj qs hq i j hi (by omega) (hnid ▸ hji)
        omega
      obtain ⟨m', vis', hfold, hle, hub, hv', hcov⟩ := ihl m vis
        (fun n' hn' => hids n' (List.mem_cons_of_mem n hn')) hm hvis
      refine ⟨m', vis', hfold, hle, hub, hv', ?_⟩
      intro n' hn' i' hi' hid'
      rcases List.mem_cons.mp hn' with rfl | hn'
      · have : i' = i := nodup_getD_inj qs hq i' i hi' hi (by rw [← hid', ← hnid])
        omega
      · exact hcov n' hn' i' hi' hid'
    · rw [if_neg hvd]
      have hmi : m ≤ i := by
        by_contra hlt
        exact hvd (hnid ▸ (hvis _).mpr ⟨i, by omega, rfl⟩)
      obtain ⟨vis1, hdfs, hvis1⟩ := chain_dfs qs hq inc hinc i hi f (by omega)
        vis [] m hm (fun j _ => List.not_mem_nil _)
      have hvis1' : ∀ v, v ∈ vis1 ↔
          ∃ j, j < max m (i + 1) ∧ v = qs.getD j "" := by
        intro v
        rw [hvis1 v]
        constructor
        · rintro (hv | ⟨j, hj1, hj2, rfl⟩)
          · obtain ⟨j, hj, rfl⟩ := (hvis v).mp hv
            exact ⟨j, by omega, rfl⟩
          · exact ⟨j, by omega, rfl⟩
        · rintro ⟨j, hj, rfl⟩
          by_cases hjm : j < m
          · exact Or.inl ((hvis _).mpr ⟨j, hjm, rfl⟩)
          · exact Or.inr ⟨j, by omega, by omega, rfl⟩
      rw [hnid, hdfs]
      simp only [Option.map_some']
      obtain ⟨m', vis', hfold, hle, hub, hv', hcov⟩ := ihl (max m (i + 1)) vis1
        (fun n' hn' => hids n' (List.mem_cons_of_mem n hn'))
        (by omega) hvis1'
      refine ⟨m', vis', hfold, by omega, hub, hv', ?_⟩
      intro n' hn' i' hi' hid'
      rcases List.mem_cons.mp hn' with rfl | hn'
      · have : i' = i := nodup_getD_inj qs hq i' i hi' hi (by rw [← hid', ← hnid])
        omega
      · exact hcov n' hn' i' hi' hid'

theorem chain_assignLayersState (nodes : List ProcessNode)
    (hne : nodes ≠ [])
    (hq : (nodes.map (fun n => n.id)).Nodup)
    (inc : String → List String)
    (hinc : ∀ j, j < nodes.length →
      inc ((nodes.map (fun n => n.id)).getD j "")
        = if j = 0 then []
          else [(nodes.map (fun n => n.id)).getD (j - 1) ""]) :
    ∃ vis, assignLayersState nodes inc
      = some ⟨prefixMap (nodes.map (fun n => n.id)) nodes.length, vis, []⟩ := by
  have hlq : (nodes.map (fun n => n.id)).length = nodes.length :=
    List.length_map nodes _
  have h0len : 0 < nodes.length := by
    cases nodes with
    | nil => exact absurd rfl hne
    | cons a t => simp
  have hgetD : ∀ (i : Nat) (h : i < nodes.length),
      (nodes.map (fun n => n.id)).getD i "" = (nodes.get ⟨i, h⟩).id := by
    intro i h
    have hlen : i < (nodes.map (fun n => n.id)).length := by omega
    rw [List.getD_eq_getElem _ _ hlen]
    simp
  have hidsAll : ∀ n ∈ nodes, ∃ i, i < (nodes.map (fun n => n.id)).length ∧
      n.id = (nodes.map (fun n => n.id)).getD i "" := by
    intro n hn
    obtain ⟨⟨i, hilen⟩, hget⟩ := List.mem_iff_get.mp hn
    exact ⟨i, by omega, by rw [hgetD i hilen, hget]⟩
  have hinc' : ∀ j, j < (nodes.map (fun n => n.id)).length →
      inc ((nodes.map (fun n => n.id)).getD j "")
        = if j = 0 then []
          else [(nodes.map (fun n => n.id)).getD (j - 1) ""] := by
    intro j hj
    exact hinc j (by omega)
  have hstart : nodes.get ⟨0, h0len⟩ ∈ nodes.filter
      (fun n => n.type == ProcessNodeType.start || (inc n.id).isEmpty) := by
    refine List.mem_filter.mpr ⟨List.get_mem nodes 0 h0len, ?_⟩
    have h0 := hinc 0 h0len
    rw [if_pos rfl] at h0
    rw [hgetD 0 h0len] at h0
    rw [h0]
    simp
  have hfempty : (nodes.filter
      (fun n => n.type == ProcessNodeType.start || (inc n.id).isEmpty)).isEmpty
        = false := by
    cases hfe : nodes.filter
        (fun n => n.type == ProcessNodeType.start || (inc n.id).isEmpty) with
    | nil => rw [hfe] at hstart; exact absurd hstart (List.not_mem_nil _)
    | cons a t => rfl
  have hpm0 : prefixMap (nodes.map (fun n => n.id)) 0 = [] := by
    simp [prefixMap]
  obtain ⟨m1, vis1, hfold1, hle1, hub1, hvis1⟩ :=
    chain_fold_starts (nodes.map (fun n => n.id)) hq inc hinc'
      (nodes.length + 1) (by omega)
      (nodes.filter
        (fun n => n.type == ProcessNodeType.start || (inc n.id).isEmpty))
      0 []
      (fun n hn => hidsAll n (List.mem_of_mem_filter hn))
      (by omega)
      (by intro v; simp)
  obtain ⟨m', vis', hfold2, hle2, hub2, hvis2, hcov⟩ :=
    chain_fold_visit (nodes.map (fun n => n.id)) hq inc hinc'
      (nodes.length + 1) (by omega) nodes m1 vis1 hidsAll (by omega) hvis1
  have hm'eq : m' = nodes.length := by
    refine Nat.le_antisymm (by omega) ?_
    by_contra hlt
    push_neg at hlt
    have hm'n : m' < nodes.length := by omega
    have := hcov (nodes.get ⟨m', hm'n⟩) (List.get_mem nodes m' hm'n) m'
      (by omega) (hgetD m' hm'n).symm
    omega
  refine ⟨vis', ?_⟩
  simp only [assignLayersState]
  rw [if_neg (by rw [hfempty]; simp :
    ¬ ((nodes.filter
      (fun n => n.type == ProcessNodeType.start || (inc n.id).isEmpty)).isEmpty
        = true))]
  rw [hpm0] at hfold1
  rw [hfold1, hfold2, hm'eq]

theorem prefixMap_snd (qs : List String) (k : Nat) :
    (prefixMap qs k).map (fun p => p.2)
      = (List.range k).map (fun (j : Nat) => (j : Int)) := by
  simp [prefixMap]

theorem foldl_max_range : ∀ (k : Nat), 1 ≤ k →
    ((List.range k).map (fun (j : Nat) => (j : Int))).foldl max 0
      = (k : Int) - 1 := by
  intro k
  induction k with
  | zero => intro h; omega
  | succ k ih =>
    intro _
    rw [List.range_succ, List.map_append, List.foldl_append]
    cases Nat.eq_zero_or_pos k with
    | inl h0 =>
      subst h0
      norm_num
    | inr hpos =>
      rw [ih hpos]
      simp only [List.map_cons, List.map_nil, List.foldl_cons, List.foldl_nil]
      rw [max_eq_right (by omega : (k : Int) - 1 ≤ ((k : Nat) : Int))]
      push_cast
      ring

theorem range_filter_beq : ∀ (k i : Nat), i < k →
    (List.range k).filter (fun j => j == i) = [i] := by
  intro k
  induction k with
  | zero => intro i hi; omega
  | succ k ih =>
    intro i hi
    rw [List.range_succ, List.filter_append]
    by_cases hik : i = k
    · subst hik
      have h1 : (List.range i).filter (fun j => j == i) = [] := by
        refine List.filter_eq_nil_iff.mpr ?_
        intro j hj
        have := List.mem_range.mp hj
        simp only [beq_iff_eq]
        omega
      rw [h1]
      simp
    · have hik2 : i < k := by omega
      rw [ih i hik2]
      have h2 : [k].filter (fun j => j == i) = [] := by
        simp [Ne.symm hik]
      rw [h2]
      simp

theorem prefixMap_bucket (qs : List String) (k i : Nat) (hi : i < k) :
    (prefixMap qs k).filter (fun p => p.2 == (i : Int))
      = [(qs.getD i "", (i : Int))] := by
  unfold prefixMap
  rw [List.filter_map]
  have hfn : ((fun (p : String × Int) => p.2 == (i : Int)) ∘
      (fun (j : Nat) => (qs.getD j "", (j : Int))))
      = (fun (j : Nat) => j == i) := by
    funext j
    simp only [Function.comp_apply]
    cases h : (j == i) with
    | true =>
      have hj : j = i := by simpa using h
      subst hj
      simp
    | false =>
      have hj : j ≠ i := by simpa using h
      simp only [beq_eq_false_iff_ne, ne_eq, Int.natCast_inj]
      exact hj
  rw [hfn, range_filter_beq k i hi]
  rfl

theorem range_map_getD (g : String → α) :
    ∀ (qs : List String),
      (List.range qs.length).map (fun (i : Nat) => g (qs.getD i ""))
        = qs.map g := by
  intro qs
  induction qs with
  | nil => simp
  | cons a t ih =>
    rw [List.length_cons, List.range_succ_eq_map]
    simp only [List.map_cons, List.getD_cons_zero, List.map_map]
    congr 1

theorem groupLayers_prefixMap (qs : List String) (hk : 1 ≤ qs.length) :
    groupLayers (prefixMap qs qs.length) = qs.map (fun x => [x]) := by
  simp only [groupLayers]
  rw [prefixMap_snd qs qs.length]
  rw [foldl_max_range qs.length hk]
  rw [show ((qs.length : Int) - 1).toNat + 1 = qs.length from by omega]
  have hmapeq : (List.range qs.length).map
      (fun (i : Nat) => ((prefixMap qs qs.length).filter
        (fun p => p.2 == (i : Int))).map (fun p => p.1))
      = (List.range qs.length).map (fun (i : Nat) => [qs.getD i ""]) := by
    refine List.map_congr_left ?_
    intro i hi
    rw [prefixMap_bucket qs qs.length i (List.mem_range.mp hi)]
    rfl
  rw [hmapeq]
  rw [show (List.range qs.length).map (fun (i : Nat) => [qs.getD i ""])
      = qs.map (fun x => [x]) from range_map_getD (fun x => [x]) qs]
  refine List.filter_eq_self.mpr ?_
  intro l hl
  obtain ⟨x, hx, rfl⟩ := List.mem_map.mp hl
  simp

theorem list_set_self : ∀ (l : List α) (i : Nat) (x : α),
    l[i]? = some x → l.set i x = l := by
  intro l
  induction l with
  | nil => intro i x h; simp at h
  | cons a t ih =>
    intro i x h
    cases i with
    | zero =>
      simp only [List.getElem?_cons_zero, Option.some.injEq] at h
      rw [List.set_cons_zero, h]
    | succ j =>
      simp only [List.getElem?_cons_succ] at h
      rw [List.set_cons_succ, ih j x h]

theorem list_set_ge : ∀ (l : List α) (i : Nat) (x : α),
    l.length ≤ i → l.set i x = l := by
  intro l
  induction l with
  | nil => intro i x _; simp
  | cons a t ih =>
    intro i x h
    cases i with
    | zero => simp at h
    | succ j =>
      rw [List.set_cons_succ, ih j x (by simpa using h)]

theorem mem_of_getElem?_eq (l : List α) (i : Nat) (a : α)
    (h : l[i]? = some a) : a ∈ l := by
  have hlen : i < l.length := by
    by_contra hge
    push_neg at hge
    rw [List.getElem?_eq_none hge] at h
    exact Option.noConfusion h
  rw [List.getElem?_eq_getElem hlen] at h
  injection h with h
  exact h ▸ List.getElem_mem hlen

theorem orderLayer_single (outE : List (String × List String))
    (layers : List (List String)) (h : ∀ l ∈ layers, ∃ x, l = [x])
    (i : Nat) (d : Bool) :
    orderLayerByBarycenter outE layers i d = layers := by
  simp only [orderLayerByBarycenter]
  cases href : layers[if d then i - 1 else i + 1]? with
  | none => rfl
  | some refLayer =>
    obtain ⟨y, rfl⟩ := h refLayer (mem_of_getElem?_eq _ _ _ href)
    show (if ([y] : List String).isEmpty = true then layers
      else layers.set i (stableSortByKey (barycenterKey outE
        (([y] : List String).enum.map (fun p => (p.2, p.1))) d)
        (layers.getD i []))) = layers
    rw [if_neg (by simp : ¬ (([y] : List String).isEmpty = true))]
    cases hli : layers[i]? with
    | none =>
      have hlen : layers.length ≤ i := by
        by_contra hlt
        push_neg at hlt
        rw [List.getElem?_eq_getElem hlt] at hli
        exact Option.noConfusion hli
      rw [List.getD_eq_getElem?_getD, hli]
      exact list_set_ge layers i _ hlen
    | some li =>
      obtain ⟨x, rfl⟩ := h li (mem_of_getElem?_eq _ _ _ hli)
      rw [List.getD_eq_getElem?_getD, hli]
      rw [show ((some [x]).getD ([] : List String)) = [x] from rfl]
      rw [show stableSortByKey (barycenterKey outE
        (([y] : List String).enum.map (fun p => (p.2, p.1))) d) [x] = [x]
        from rfl]
      exact list_set_self layers i [x] hli

theorem foldl_fixed (f : β → α → β) (b : β) (h : ∀ a, f b a = b) :
    ∀ l : List α, l.foldl f b = b := by
  intro l
  induction l with
  | nil => rfl
  | cons a t ih => rw [List.foldl_cons, h a, ih]

theorem orderNodes_single (layers : List (List String))
    (outE : List (String × List String))
    (h : ∀ l ∈ layers, ∃ x, l = [x]) :
    orderNodesInLayers layers outE = layers := by
  simp only [orderNodesInLayers]
  have hdown : (List.range layers.length).foldl
      (fun acc i =>
        if 1 ≤ i then orderLayerByBarycenter outE acc i true else acc)
      layers = layers := by
    refine foldl_fixed _ _ ?_ _
    intro i
    by_cases h1 : 1 ≤ i
    · rw [if_pos h1, orderLayer_single outE layers h i true]
    · rw [if_neg h1]
  refine foldl_fixed _ _ ?_ _
  intro a
  show (List.range (((List.range layers.length).foldl
      (fun acc i =>
        if 1 ≤ i then orderLayerByBarycenter outE acc i true else acc)
      layers).length - 1)).reverse.foldl
    (fun acc i => orderLayerByBarycenter outE acc i false)
    ((List.range layers.length).foldl
      (fun acc i =>
        if 1 ≤ i then orderLayerByBarycenter outE acc i true else acc)
      layers) = layers
  rw [hdown]
  refine foldl_fixed _ _ ?_ _
  intro i
  exact orderLayer_single outE layers h i false

theorem positionOfEntry_default (i : Nat) (x : String) :
    positionOfEntry DEFAULT_OPTIONS i 1 0 x
      = (x, Position.mk 450 (50 + (i : Int) * 150)) := by
  simp only [positionOfEntry, DEFAULT_OPTIONS]
  norm_num

theorem positions_single_aux (qs : List String) : ∀ (n : Nat),
    (((qs.map (fun x => [x])).enumFrom n).map (fun li =>
      li.2.enum.map (fun ni =>
        positionOfEntry DEFAULT_OPTIONS li.1 li.2.length ni.1 ni.2))).flatten
      = (qs.enumFrom n).map
        (fun p => (p.2, Position.mk 450 (50 + (p.1 : Int) * 150))) := by
  induction qs with
  | nil => intro n; rfl
  | cons a t ih =>
    intro n
    simp only [List.map_cons, List.enumFrom_cons, List.flatten_cons]
    rw [ih (n + 1)]
    have hhead : ((([a] : List String).enum).map (fun ni =>
        positionOfEntry DEFAULT_OPTIONS n ([a] : List String).length ni.1 ni.2))
        = [(a, Position.mk 450 (50 + (n : Int) * 150))] := by
      show [positionOfEntry DEFAULT_OPTIONS n 1 0 a] = _
      rw [positionOfEntry_default n a]
    rw [hhead]
    rfl

theorem positions_single (qs : List String) :
    positionsOfLayers DEFAULT_OPTIONS (qs.map (fun x => [x]))
      = qs.enum.map
        (fun p => (p.2, Position.mk 450 (50 + (p.1 : Int) * 150))) := by
  have h := positions_single_aux qs 0
  simpa [positionsOfLayers, List.enum] using h

theorem find?_enumFrom_pos :
    ∀ (qs : List String), qs.Nodup → ∀ (n i : Nat), i < qs.length →
      ((List.enumFrom n qs).map
        (fun p => (p.2, Position.mk 450 (50 + (p.1 : Int) * 150)))).find?
        (fun p => p.1 == qs.getD i "")
        = some (qs.getD i "",
            Position.mk 450 (50 + ((n + i : Nat) : Int) * 150)) := by
  intro qs
  induction qs with
  | nil => intro _ n i hi; simp at hi
  | cons a t ih =>
    intro hnd n i hi
    rw [List.enumFrom_cons, List.map_cons, List.find?_cons]
    cases i with
    | zero =>
      simp
    | succ j =>
      have hjt : j < t.length := by simpa using hi
      have hne : ((((n, a) : Nat × String).2,
          Position.mk 450 (50 + ((((n, a) : Nat × String).1 : Nat) : Int) * 150)).1
          == (a :: t).getD (j + 1) "") = false := by
        simp only [List.getD_cons_succ, beq_eq_false_iff_ne]
        intro h
        have hmem : t.getD j "" ∈ t := by
          rw [List.getD_eq_getElem _ _ hjt]
          exact List.getElem_mem hjt
        exact (List.nodup_cons.mp hnd).1 (h ▸ hmem)
      rw [hne]
      simp only [List.getD_cons_succ]
      rw [show n + (j + 1) = (n + 1) + j from by omega]
      exact ih (List.nodup_cons.mp hnd).2 (n + 1) j hjt

theorem find?_enum_pos (qs : List String) (hq : qs.Nodup) (i : Nat)
    (hi : i < qs.length) :
    ((qs.enum.map
        (fun p => (p.2, Position.mk 450 (50 + (p.1 : Int) * 150)))).find?
      (fun p => p.1 == qs.getD i ""))
      = some (qs.getD i "", Position.mk 450 (50 + (i : Int) * 150)) := by
  have h := find?_enumFrom_pos qs hq 0 i hi
  simpa [List.enum] using h

theorem chain_final_map (nodes : List ProcessNode)
    (hq : (nodes.map (fun n => n.id)).Nodup) :
    nodes.map (fun n =>
      match ((nodes.map (fun n => n.id)).enum.map
          (fun p => (p.2, Position.mk 450 (50 + (p.1 : Int) * 150)))).find?
          (fun p => p.1 == n.id) with
      | some p => { n with position := p.2 }
      | none => n)
      = nodes.enum.map (fun p =>
          { p.2 with position := Position.mk 450 (50 + (p.1 : Int) * 150) }) := by
  refine List.ext_getElem (by simp) ?_
  intro i h1 h2
  have hilen : i < nodes.length := by simpa using h1
  have himap : i < (nodes.map (fun n => n.id)).length := by simpa using hilen
  rw [List.getElem_map, List.getElem_map, List.getElem_enum]
  have hid : (nodes[i]).id = (nodes.map (fun n => n.id)).getD i "" := by
    rw [List.getD_eq_getElem _ _ himap, List.getElem_map]
  rw [hid]
  rw [find?_enum_pos (nodes.map (fun n => n.id)) hq i himap]
  rw [← hid]

/-- C9: for every straight chain of k nodes joined by the k−1 transitions
from each node to the next and no branching, applyLayout layers node i of
the chain at layer i — k distinct layers, monotonically increasing along
the chain — and the positioning phase under the default top-to-bottom
options places node i at x = 450 and y = 50 + 150·i, so the y coordinates
are strictly increasing in chain order. -/
theorem C9_chain_layout (nodes : List ProcessNode) (ts : List ProcessTransition)
    (hne : nodes ≠ [])
    (hq : (nodes.map (fun n => n.id)).Nodup)
    (hts : ts.map (fun t => (t.«from», t.«to»))
      = (nodes.map (fun n => n.id)).zip ((nodes.map (fun n => n.id)).drop 1)) :
    assignLayers nodes (assocGet (incomingEntries nodes ts))
      = some ((nodes.map (fun n => n.id)).map (fun x => [x])) ∧
    applyLayout nodes ts DEFAULT_OPTIONS
      = some (nodes.enum.map (fun p =>
          { p.2 with position := Position.mk 450 (50 + (p.1 : Int) * 150) })) ∧
    (∀ ns, applyLayout nodes ts DEFAULT_OPTIONS = some ns →
      ∀ (i j : Nat) (hij : i < j) (hj : j < ns.length),
        (ns.get ⟨i, Nat.lt_trans hij hj⟩).position.y
          < (ns.get ⟨j, hj⟩).position.y) := by
  have hinc := chain_incoming nodes ts hq hts
  obtain ⟨vis, hstate⟩ := chain_assignLayersState nodes hne hq
    (assocGet (incomingEntries nodes ts)) hinc
  have hlq : (nodes.map (fun n => n.id)).length = nodes.length :=
    List.length_map nodes _
  have h0len : 0 < nodes.length := by
    cases nodes with
    | nil => exact absurd rfl hne
    | cons a t => simp
  have hlay : assignLayers nodes (assocGet (incomingEntries nodes ts))
      = some ((nodes.map (fun n => n.id)).map (fun x => [x])) := by
    rw [assignLayers, hstate]
    simp only [Option.map_some']
    congr 1
    show groupLayers (prefixMap (nodes.map (fun n => n.id)) nodes.length) = _
    rw [show nodes.length = (nodes.map (fun n => n.id)).length from hlq.symm]
    exact groupLayers_prefixMap _ (by omega)
  have hsing : ∀ l ∈ (nodes.map (fun n => n.id)).map (fun x => [x]),
      ∃ x, l = [x] := by
    intro l hl
    obtain ⟨x, _, rfl⟩ := List.mem_map.mp hl
    exact ⟨x, rfl⟩
  have hempF : nodes.isEmpty = false := by
    cases nodes with
    | nil => exact absurd rfl hne
    | cons a t => rfl
  have happ : applyLayout nodes ts DEFAULT_OPTIONS
      = some (nodes.enum.map (fun p =>
          { p.2 with position := Position.mk 450 (50 + (p.1 : Int) * 150) })) := by
    simp only [applyLayout]
    rw [if_neg (by rw [hempF]; simp : ¬ (nodes.isEmpty = true))]
    rw [hlay]
    simp only [Option.map_some']
    rw [orderNodes_single _ (outgoingEntries nodes ts) hsing]
    rw [positions_single (nodes.map (fun n => n.id))]
    rw [chain_final_map nodes hq]
  refine ⟨hlay, happ, ?_⟩
  intro ns hns i j hij hj
  rw [happ] at hns
  injection hns with hns
  subst hns
  have hjn : j < nodes.length := by simpa using hj
  have hin : i < nodes.length := by omega
  rw [List.get_eq_getElem, List.get_eq_getElem]
  rw [List.getElem_map, List.getElem_map, List.getElem_enum, List.getElem_enum]
  show (50 : Int) + (i : Int) * 150 < 50 + (j : Int) * 150
  have hcast : (i : Int) < (j : Int) := by exact_mod_cast hij
  omega

/-- Three task nodes forming the straight chain A→B→C. -/
def chainNodes3 : List ProcessNode :=
  [{ id := "A", type := .task, name := "A", position := { x := 0, y := 0 } },
   { id := "B", type := .task, name := "B", position := { x := 0, y := 0 } },
   { id := "C", type := .task, name := "C", position := { x := 0, y := 0 } }]

/-- The two transitions of the chain A→B→C. -/
def chainTs3 : List ProcessTransition :=
  [{ id := "t1", «from» := "A", «to» := "B" },
   { id := "t2", «from» := "B", «to» := "C" }]

/-- Witness for C9 at the three-node chain A→B→C: three singleton layers
in chain order and positions (450,50), (450,200), (450,350). -/
theorem C9_chain_layout_witness :
    assignLayers chainNodes3 (assocGet (incomingEntries chainNodes3 chainTs3))
      = some [["A"], ["B"], ["C"]] ∧
    applyLayout chainNodes3 chainTs3 DEFAULT_OPTIONS
      = some
        [{ id := "A", type := .task, name := "A",
           position := { x := 450, y := 50 } },
         { id := "B", type := .task, name := "B",
           position := { x := 450, y := 200 } },
         { id := "C", type := .task, name := "C",
           position := { x := 450, y := 350 } }] := by
  obtain ⟨h1, h2, h3⟩ := C9_chain_layout chainNodes3 chainTs3
    (by decide) (by decide) (by decide)
  refine ⟨?_, ?_⟩
  · rw [h1]
    decide
  · rw [h2]
    decide
